import Mathlib

/-!
Verification of graph/path/yen_ksp.go (Yen's k-shortest loopless paths).

The Go source is shallowly embedded below.  Nodes are collapsed to their
int64 IDs (modelled as Int): every operation of the source consults nodes
only through ID comparison, weight lookup by ID pair, and neighbor
enumeration by ID, so this collapse is faithful.  float64 edge weights are
modelled as exact rationals; the +Inf weight returned by the oracle on an
unreachable target is modelled by an Option result.  The external
shortest-path oracle DijkstraFromTo lives outside the analysed source and
is modelled from the spec as an exact minimum-weight loopless path search
over the (possibly masked) view.  The possibly unbounded outer loop (k
negative) is embedded with an explicit fuel parameter; all invariant
theorems are proved for every fuel value.
-/

set_option maxHeartbeats 1000000

namespace YenKSP

/-- Shallow embedding of the gonum graph capability consumed by yen_ksp.go:
the node set (as a list of int64 IDs), the neighbor enumeration used by
From, the directedness flag obtained from the type assertion on
graph.Directed, and the weighting function selected at the top of
YenKShortestPaths (either the Weighted graph's Weight or UniformCost),
returning a (weight, ok) pair. -/
structure WGraph where
  nodes : List Int
  adj : Int → List Int
  directed : Bool
  w : Int → Int → ℚ × Bool

/-- Embedding of the yenKSPAdjuster decorator: the wrapped graph together
with the two transient suppression sets (visitedNodes, visitedEdges),
modelled as lists used purely for membership. -/
structure yenKSPAdjuster where
  G : WGraph
  visitedNodes : List Int
  visitedEdges : List (Int × Int)

/-- Embedding of yenKSPAdjuster.canWalk: an edge u -> v may be traversed
when v is not a suppressed node and (u, v) is not a suppressed edge. -/
def yenKSPAdjuster.canWalk (g : yenKSPAdjuster) (u v : Int) : Bool :=
  !(g.visitedNodes.contains v) && !(g.visitedEdges.contains (u, v))

/-- Embedding of yenKSPAdjuster.From: neighbor enumeration with the
suppressed nodes and edges filtered out; a suppressed node has no
neighbors.  The Go code removes filtered entries by swapping with the
last element, which permutes the survivors; since the surviving SET is
what every consumer observes (the oracle is modelled extensionally), an
order-preserving filter is a faithful embedding. -/
def yenKSPAdjuster.From (g : yenKSPAdjuster) (id : Int) : List Int :=
  if g.visitedNodes.contains id then []
  else (g.G.adj id).filter (fun v => g.canWalk id v)

/-- Embedding of yenKSPAdjuster.removeNode. -/
def yenKSPAdjuster.removeNode (g : yenKSPAdjuster) (u : Int) : yenKSPAdjuster :=
  { g with visitedNodes := u :: g.visitedNodes }

/-- Embedding of yenKSPAdjuster.removeEdge: suppresses u -> v, and v -> u
as well when the wrapped graph is undirected. -/
def yenKSPAdjuster.removeEdge (g : yenKSPAdjuster) (u v : Int) : yenKSPAdjuster :=
  if g.G.directed then { g with visitedEdges := (u, v) :: g.visitedEdges }
  else { g with visitedEdges := (u, v) :: (v, u) :: g.visitedEdges }

/-- Embedding of yenKSPAdjuster.reset: clears both suppression sets. -/
def yenKSPAdjuster.reset (g : yenKSPAdjuster) : yenKSPAdjuster :=
  { g with visitedNodes := [], visitedEdges := [] }

/-- Embedding of yenKSPAdjuster.Weight: delegates unchanged to the
selected weighting function, ignoring the suppression state. -/
def yenKSPAdjuster.Weight (g : yenKSPAdjuster) (xid yid : Int) : ℚ × Bool :=
  g.G.w xid yid

/-- Total weight of a path: the sum of the weighting function over
consecutive node pairs (first components; the ok flag is ignored exactly
as the rootWeight loop of the source ignores it). -/
def pathWeight (w : Int → Int → ℚ × Bool) : List Int → ℚ
  | u :: v :: rest => (w u v).1 + pathWeight w (v :: rest)
  | _ => 0

/-- Modelled from the spec: the depth-first enumeration underlying the
shortest-path oracle.  dfsPaths yk t fuel visited u lists every loopless
path from u to t in the masked view yk that avoids the nodes in visited,
using at most fuel + 1 nodes.  Enumeration stops at t, which is sound for
loopless paths since t can only occur as the final node. -/
def dfsPaths (yk : yenKSPAdjuster) (t : Int) : Nat → List Int → Int → List (List Int)
  | 0, _, u => if u = t then [[u]] else []
  | fuel + 1, visited, u =>
    if u = t then [[u]]
    else
      ((yk.From u).filter (fun v => !((u :: visited).contains v))).flatMap
        (fun v => (dfsPaths yk t fuel (u :: visited) v).map (fun p => u :: p))

/-- Modelled from the spec: selection of a minimum-weight path from an
enumeration, with ties resolved in favor of the earliest entry (the
oracle's tie-breaking policy is its own and opaque to the core; the model
fixes one deterministic policy). -/
def chooseShortest (w : Int → Int → ℚ × Bool) : List (List Int) → Option (List Int × ℚ)
  | [] => none
  | p :: ps =>
    match chooseShortest w ps with
    | none => some (p, pathWeight w p)
    | some (q, wq) =>
      if pathWeight w p ≤ wq then some (p, pathWeight w p) else some (q, wq)

/-- Modelled from the spec: the external shortest-path oracle
DijkstraFromTo consumed (not implemented) by yen_ksp.go.  It returns a
minimum-weight loopless path from s to t over the masked view together
with its weight, and none (the empty path with +Inf weight) when t is
unreachable. -/
def DijkstraFromTo (s t : Int) (yk : yenKSPAdjuster) : Option (List Int × ℚ) :=
  chooseShortest yk.G.w (dfsPaths yk t yk.G.nodes.length [] s)

/-- Embedding of isSamePath: two paths are the same when their lengths
agree and their node IDs agree positionwise. -/
def isSamePath (a b : List Int) : Bool :=
  if a.length ≠ b.length then false
  else (a.zip b).all (fun x => x.1 == x.2)

/-- Embedding of the yenShortest record holding a candidate path and its
weight. -/
structure yenShortest where
  path : List Int
  weight : ℚ

/-- Condition under which the inner masking loop of YenKShortestPaths
suppresses the deviation edge of an accepted path: the path is longer
than n and its first n + 1 node IDs coincide with the root. -/
def matchesRoot (path root : List Int) (n : Nat) : Prop :=
  n < path.length ∧ path.take (n + 1) = root

instance (path root : List Int) (n : Nat) : Decidable (matchesRoot path root n) := by
  unfold matchesRoot; infer_instance

/-- Body of the inner masking loop over the accepted paths: a path that
matches the root has its deviation edge (positions n and n + 1; the
source indexes path[n+1] without a bound check, modelled by getD)
suppressed. -/
def maskEdgeStep (root : List Int) (n : Nat) (yk : yenKSPAdjuster)
    (path : List Int) : yenKSPAdjuster :=
  if matchesRoot path root n then
    yk.removeEdge (path.getD n 0) (path.getD (n + 1) 0)
  else yk

/-- Embedding of the mask construction for one spur index n of the inner
loop: reset, then for every accepted path matching the root suppress its
deviation edge, then suppress every root node except the spur. -/
def buildMask (G : WGraph) (paths : List (List Int)) (root : List Int) (n : Nat) :
    yenKSPAdjuster :=
  let yk0 : yenKSPAdjuster := { G := G, visitedNodes := [], visitedEdges := [] }
  let yk1 := paths.foldl (maskEdgeStep root n) yk0
  root.dropLast.foldl yenKSPAdjuster.removeNode yk1

/-- Candidate assembled from a successful spur query: when the root
(prev.take (n + 1)) has more than one node the spur path is spliced onto
the root minus its last node and the root weight is added, otherwise the
spur path alone is the candidate. -/
def yenCand (G : WGraph) (prev : List Int) (n : Nat) (spath : List Int)
    (wt : ℚ) : yenShortest :=
  if 1 < (prev.take (n + 1)).length then
    { path := (prev.take (n + 1)).dropLast ++ spath,
      weight := wt + pathWeight G.w (prev.take (n + 1)) }
  else { path := spath, weight := wt }

/-- Embedding of one iteration of the spur-node loop body: build the mask
for spur index n (the root is prev.take (n + 1) and the spur is the root's
last node prev.getD n), query the oracle from the spur, skip if
unreachable or if the spur path's weight alone exceeds the absolute cost
ceiling, otherwise splice via yenCand and append the candidate to the
pool unless an identical path is already pooled. -/
def spurStep (G : WGraph) (cost : ℚ) (t : Int) (paths : List (List Int))
    (prev : List Int) (pot : List yenShortest) (n : Nat) : List yenShortest :=
  match DijkstraFromTo (prev.getD n 0) t (buildMask G paths (prev.take (n + 1)) n) with
  | none => pot
  | some (spath, wt) =>
    if cost < wt then pot
    else
      if pot.any (fun c => isSamePath c.path (yenCand G prev n spath wt).path) then pot
      else pot ++ [yenCand G prev n spath wt]

/-- Embedding of the full inner loop of one outer iteration: the spur
node ranges over every position of the previous accepted path except the
last. -/
def yenRound (G : WGraph) (cost : ℚ) (t : Int) (paths : List (List Int))
    (pot : List yenShortest) : List yenShortest :=
  let prev := paths.getLastD []
  (List.range (prev.length - 1)).foldl (spurStep G cost t paths prev) pot

/-- Insertion of a candidate into a weight-sorted pool (stable: an equal
weight goes after existing entries of that weight). -/
def insertByWeight (c : yenShortest) : List yenShortest → List yenShortest
  | [] => [c]
  | d :: ds => if c.weight ≤ d.weight then c :: d :: ds else d :: insertByWeight c ds

/-- Embedding of the slices.SortFunc call ordering the pool by weight.
The Go sort is unstable and its permutation among equal weights is
unspecified; a stable insertion sort is one faithful refinement. -/
def sortByWeight : List yenShortest → List yenShortest
  | [] => []
  | c :: cs => insertByWeight c (sortByWeight cs)

/-- Embedding of the outer loop of YenKShortestPaths: each iteration runs
the spur loop on the most recently accepted path, stops when the pool is
empty, sorts the pool, stops when the best candidate is degenerate or
exceeds the absolute cost ceiling, and otherwise promotes it.  The fuel
parameter bounds the number of iterations (the Go loop counts i from 1
while k < 0 or i < k). -/
def yenLoop (G : WGraph) (cost : ℚ) (t : Int) :
    Nat → List (List Int) → List yenShortest → List (List Int)
  | 0, paths, _ => paths
  | fuel + 1, paths, pot =>
    match sortByWeight (yenRound G cost t paths pot) with
    | [] => paths
    | best :: rest =>
      if best.path.length ≤ 1 ∨ cost < best.weight then paths
      else yenLoop G cost t fuel (paths ++ [best.path]) rest

/-- Embedding of YenKShortestPaths: query the oracle on the unmasked
view; an unreachable target yields the empty result, a single-node path
is returned alone; otherwise the absolute cost ceiling is set to the
shortest weight plus the cost argument and the outer loop runs.  For
nonnegative k the Go loop performs at most k - 1 iterations, which is the
fuel used here; for negative k the loop is bounded only by its break
statements and the fuel is a bound larger than the number of loopless
paths of the graph. -/
def YenKShortestPaths (G : WGraph) (k : Int) (cost : ℚ) (s t : Int) :
    List (List Int) :=
  let yk : yenKSPAdjuster := { G := G, visitedNodes := [], visitedEdges := [] }
  match DijkstraFromTo s t yk with
  | none => []
  | some (shortest, weight) =>
    if shortest.length = 1 then [shortest]
    else
      let cost := cost + weight
      let fuel := if k < 0 then (G.nodes.length + 2).factorial else (k - 1).toNat
      yenLoop G cost t fuel [shortest] []

/-- One traversal step of the masked view: v is enumerated among the
neighbors of u by the view. -/
def maskedStep (yk : yenKSPAdjuster) (u v : Int) : Prop :=
  v ∈ yk.From u

/-- Valid loopless path of the graph from s to t: nonempty, starts at s,
ends at t, repeats no node, follows adjacency, and stays inside the node
set. -/
def ValidPath (G : WGraph) (s t : Int) (p : List Int) : Prop :=
  p ≠ [] ∧ p.head? = some s ∧ p.getLast? = some t ∧ p.Nodup ∧
    p.Chain' (fun u v => v ∈ G.adj u) ∧ ∀ x ∈ p, x ∈ G.nodes

/-- Length of the longest common prefix of two ID sequences. -/
def sharedLen : List Int → List Int → Nat
  | a :: as, b :: bs => if a = b then sharedLen as bs + 1 else 0
  | _, _ => 0

/-- Largest common-prefix length of p with any member of paths. -/
def maxShared (p : List Int) (paths : List (List Int)) : Nat :=
  (paths.map (sharedLen p)).foldr max 0

/-- Structural invariant of the candidate pool relative to the accepted
list: every pooled candidate is a valid loopless s-t path of at least two
nodes carrying its exact weight and not yet accepted, and no two pooled
candidates share a node sequence. -/
def PotInv (G : WGraph) (s t : Int) (paths : List (List Int))
    (pot : List yenShortest) : Prop :=
  (∀ c ∈ pot, ValidPath G s t c.path ∧ 2 ≤ c.path.length ∧
    c.weight = pathWeight G.w c.path ∧ c.path ∉ paths) ∧
  (pot.map yenShortest.path).Nodup

/-- Full loop invariant at the entry of an outer iteration. -/
structure LoopInv (G : WGraph) (cost : ℚ) (s t : Int)
    (paths : List (List Int)) (pot : List yenShortest) : Prop where
  paths_ne : paths ≠ []
  paths_valid : ∀ p ∈ paths, ValidPath G s t p
  paths_long : ∀ p ∈ paths, 2 ≤ p.length
  paths_nodup : paths.Nodup
  paths_sorted : paths.Pairwise (fun p q => pathWeight G.w p ≤ pathWeight G.w q)
  paths_cost : ∀ p ∈ paths.tail, pathWeight G.w p ≤ cost
  pot_inv : PotInv G s t paths pot
  min_out : ∀ q, ValidPath G s t q → pathWeight G.w q ≤ cost → q ∉ paths →
    pathWeight G.w (paths.getLastD []) ≤ pathWeight G.w q
  cov : ∀ q, ValidPath G s t q → pathWeight G.w q ≤ cost → q ∉ paths →
    (∃ c ∈ pot, c.weight ≤ pathWeight G.w q ∧
      c.path.take (maxShared q paths) = q.take (maxShared q paths)) ∨
    sharedLen q (paths.getLastD []) = maxShared q paths

/-! Concrete graphs used by witnesses and counterexamples. -/

/-- Concrete directed graph from the spec's worked example: nodes 1..5
for A..E with edges A-B 1, A-C 2, B-D 1, C-D 1, B-C 1, D-E 1. -/
def exG : WGraph where
  nodes := [1, 2, 3, 4, 5]
  adj := fun u =>
    if u = 1 then [2, 3]
    else if u = 2 then [4, 3]
    else if u = 3 then [4]
    else if u = 4 then [5] else []
  directed := true
  w := fun u v =>
    if u = 1 ∧ v = 2 then (1, true)
    else if u = 1 ∧ v = 3 then (2, true)
    else if u = 2 ∧ v = 4 then (1, true)
    else if u = 3 ∧ v = 4 then (1, true)
    else if u = 2 ∧ v = 3 then (1, true)
    else if u = 4 ∧ v = 5 then (1, true)
    else (0, false)

/-- Concrete directed graph with a negative-weight edge 5 -> 6 in a
component disconnected from the component of nodes 0 and 1. -/
def negG : WGraph where
  nodes := [0, 1, 5, 6]
  adj := fun u => if u = 0 then [1] else if u = 5 then [6] else []
  directed := true
  w := fun u v =>
    if u = 0 ∧ v = 1 then (1, true)
    else if u = 5 ∧ v = 6 then (-3, true) else (0, false)

/-- The same graph as negG with the weight of the edge 5 -> 6 made
positive. -/
def posG : WGraph where
  nodes := [0, 1, 5, 6]
  adj := fun u => if u = 0 then [1] else if u = 5 then [6] else []
  directed := true
  w := fun u v =>
    if u = 0 ∧ v = 1 then (1, true)
    else if u = 5 ∧ v = 6 then (3, true) else (0, false)

/-! Helper lemmas: masked view, path weights, enumeration, oracle. -/

theorem contains_iff (l : List Int) (a : Int) : l.contains a = true ↔ a ∈ l :=
  List.elem_iff

theorem contains_pair_iff (l : List (Int × Int)) (a : Int × Int) :
    l.contains a = true ↔ a ∈ l :=
  List.elem_iff

/-- Membership characterization of the masked neighbor enumeration. -/
theorem mem_From_iff (yk : yenKSPAdjuster) (u v : Int) :
    v ∈ yk.From u ↔
      u ∉ yk.visitedNodes ∧ v ∈ yk.G.adj u ∧ v ∉ yk.visitedNodes ∧
        (u, v) ∉ yk.visitedEdges := by
  unfold yenKSPAdjuster.From yenKSPAdjuster.canWalk
  by_cases hu : u ∈ yk.visitedNodes
  · rw [if_pos ((contains_iff _ _).mpr hu)]
    simp [hu]
  · rw [if_neg (fun hc => hu ((contains_iff _ _).mp hc))]
    simp only [List.mem_filter, Bool.and_eq_true, Bool.not_eq_true']
    constructor
    · rintro ⟨h1, h2, h3⟩
      refine ⟨hu, h1, ?_, ?_⟩
      · intro hm
        rw [(contains_iff _ _).mpr hm] at h2
        exact Bool.noConfusion h2
      · intro hm
        rw [(contains_pair_iff _ _).mpr hm] at h3
        exact Bool.noConfusion h3
    · rintro ⟨-, h1, h2, h3⟩
      refine ⟨h1, ?_, ?_⟩
      · cases hc : yk.visitedNodes.contains v with
        | false => rfl
        | true => exact absurd ((contains_iff _ _).mp hc) h2
      · cases hc : yk.visitedEdges.contains (u, v) with
        | false => rfl
        | true => exact absurd ((contains_pair_iff _ _).mp hc) h3

theorem pathWeight_single (w : Int → Int → ℚ × Bool) (u : Int) :
    pathWeight w [u] = 0 := rfl

theorem pathWeight_cons_cons (w : Int → Int → ℚ × Bool) (u v : Int) (rest : List Int) :
    pathWeight w (u :: v :: rest) = (w u v).1 + pathWeight w (v :: rest) := rfl

theorem pathWeight_cons_of_head (w : Int → Int → ℚ × Bool) (x y : Int) (L : List Int)
    (h : L.head? = some y) :
    pathWeight w (x :: L) = (w x y).1 + pathWeight w L := by
  cases L with
  | nil => simp at h
  | cons z L' =>
    simp only [List.head?_cons, Option.some.injEq] at h
    subst h
    rfl

/-- Weight of a spliced path: dropping the last node of p and appending a
path q that starts at that node adds the weights. -/
theorem pathWeight_glue (w : Int → Int → ℚ × Bool) (q : List Int) :
    ∀ (p : List Int) (a : Int), p.getLast? = some a → q.head? = some a →
      pathWeight w (p.dropLast ++ q) = pathWeight w p + pathWeight w q := by
  intro p
  induction p with
  | nil => intro a h _; simp at h
  | cons x p ih =>
    intro a h hq
    cases p with
    | nil =>
      simp only [List.getLast?_singleton, Option.some.injEq] at h
      subst h
      simp [pathWeight_single]
    | cons y p' =>
      rw [List.getLast?_cons_cons] at h
      have ih' := ih a h hq
      have hh : ((y :: p').dropLast ++ q).head? = some y := by
        cases p' with
        | nil =>
          simp only [List.getLast?_singleton, Option.some.injEq] at h
          subst h
          simpa using hq
        | cons z p'' => simp
      calc pathWeight w ((x :: y :: p').dropLast ++ q)
          = pathWeight w (x :: ((y :: p').dropLast ++ q)) := by
            simp [List.dropLast]
        _ = (w x y).1 + pathWeight w ((y :: p').dropLast ++ q) :=
            pathWeight_cons_of_head w x y _ hh
        _ = (w x y).1 + (pathWeight w (y :: p') + pathWeight w q) := by rw [ih']
        _ = pathWeight w (x :: y :: p') + pathWeight w q := by
            rw [pathWeight_cons_cons]; ring

/-- Splitting the weight of a path at an interior position n: the prefix
through position n and the suffix from position n share the node at n and
their weights add up. -/
theorem pathWeight_take_drop (w : Int → Int → ℚ × Bool) (p : List Int) (n : Nat)
    (h : n < p.length) :
    pathWeight w p = pathWeight w (p.take (n + 1)) + pathWeight w (p.drop n) := by
  obtain ⟨x, hx⟩ : ∃ x, p[n]? = some x := ⟨p[n], List.getElem?_eq_getElem h⟩
  have h2 : (p.take (n + 1)).getLast? = some x := by
    rw [List.take_succ, hx]
    exact List.getLast?_concat _
  have h3 : (p.drop n).head? = some x := by
    rw [List.head?_drop, hx]
  have h1 : (p.take (n + 1)).dropLast = p.take n := by
    rw [List.dropLast_eq_take, List.take_take]
    congr 1
    simp only [List.length_take]
    omega
  have := pathWeight_glue w (p.drop n) (p.take (n + 1)) x h2 h3
  rw [h1, List.take_append_drop] at this
  exact this

/-- Soundness of the enumeration: every listed path starts at u, ends at
t, walks the masked view, repeats no node, and its tail avoids both u and
the visited set. -/
theorem dfsPaths_sound (yk : yenKSPAdjuster) (t : Int) :
    ∀ (fuel : Nat) (visited : List Int) (u : Int) (p : List Int),
      p ∈ dfsPaths yk t fuel visited u →
      p.head? = some u ∧ p.getLast? = some t ∧ p.Chain' (maskedStep yk) ∧ p.Nodup ∧
        ∀ x ∈ p.tail, x ∉ u :: visited := by
  intro fuel
  induction fuel with
  | zero =>
    intro visited u p hp
    unfold dfsPaths at hp
    split at hp
    · next h =>
      simp only [List.mem_singleton] at hp
      subst hp
      subst h
      exact ⟨rfl, rfl, List.chain'_singleton u, List.nodup_singleton u, by simp⟩
    · simp at hp
  | succ fuel ih =>
    intro visited u p hp
    unfold dfsPaths at hp
    split at hp
    · next h =>
      simp only [List.mem_singleton] at hp
      subst hp
      subst h
      exact ⟨rfl, rfl, List.chain'_singleton u, List.nodup_singleton u, by simp⟩
    · next h =>
      simp only [List.mem_flatMap, List.mem_map, List.mem_filter] at hp
      obtain ⟨v, ⟨hvF, hvC⟩, p', hp', rfl⟩ := hp
      have hvnot : v ∉ u :: visited := by
        intro hm
        rw [Bool.not_eq_true'] at hvC
        rw [(contains_iff _ _).mpr hm] at hvC
        exact Bool.noConfusion hvC
      obtain ⟨h1, h2, h3, h4, h5⟩ := ih (u :: visited) v p' hp'
      cases p' with
      | nil => exact Option.noConfusion h1
      | cons y p'' =>
        simp only [List.head?_cons, Option.some.injEq] at h1
        subst h1
        refine ⟨rfl, ?_, ?_, ?_, ?_⟩
        · rw [List.getLast?_cons_cons]
          exact h2
        · exact List.chain'_cons.mpr ⟨hvF, h3⟩
        · refine List.nodup_cons.mpr ⟨?_, h4⟩
          intro hu
          rcases List.mem_cons.mp hu with rfl | hm
          · exact hvnot (List.mem_cons_self _ _)
          · exact h5 u hm (List.mem_cons_of_mem _ (List.mem_cons_self _ _))
        · intro x hx
          rcases List.mem_cons.mp hx with rfl | hm
          · exact hvnot
          · intro hmem
            exact h5 x hm (List.mem_cons_of_mem _ hmem)

/-- Completeness of the enumeration: every loopless path through the
masked view from u to t whose tail avoids the visited set and which fits
in the fuel bound is listed. -/
theorem dfsPaths_complete (yk : yenKSPAdjuster) (t : Int) :
    ∀ (fuel : Nat) (visited : List Int) (u : Int) (p : List Int),
      p.head? = some u → p.getLast? = some t → p.Chain' (maskedStep yk) → p.Nodup →
      (∀ x ∈ p.tail, x ∉ visited) → p.length ≤ fuel + 1 →
      p ∈ dfsPaths yk t fuel visited u := by
  intro fuel
  induction fuel with
  | zero =>
    intro visited u p h1 h2 _ _ _ hlen
    cases p with
    | nil => exact Option.noConfusion h1
    | cons x p' =>
      cases p' with
      | nil =>
        simp only [List.head?_cons, Option.some.injEq] at h1
        subst h1
        simp only [List.getLast?_singleton, Option.some.injEq] at h2
        unfold dfsPaths
        rw [if_pos h2]
        simp
      | cons y p'' => simp at hlen
  | succ fuel ih =>
    intro visited u p h1 h2 h3 h4 h5 hlen
    cases p with
    | nil => exact Option.noConfusion h1
    | cons x q =>
      simp only [List.head?_cons, Option.some.injEq] at h1
      subst h1
      cases q with
      | nil =>
        simp only [List.getLast?_singleton, Option.some.injEq] at h2
        unfold dfsPaths
        rw [if_pos h2]
        simp
      | cons v rest =>
        rw [List.getLast?_cons_cons] at h2
        have htmem : t ∈ v :: rest := List.mem_of_mem_getLast? (by rw [h2]; rfl)
        have hune : x ≠ t := by
          intro e
          rw [e] at h4
          exact (List.nodup_cons.mp h4).1 htmem
        unfold dfsPaths
        rw [if_neg hune]
        simp only [List.mem_flatMap, List.mem_filter, List.mem_map]
        have hchain := List.chain'_cons.mp h3
        have hvnot : v ∉ x :: visited := by
          intro hm
          rcases List.mem_cons.mp hm with rfl | hm'
          · exact (List.nodup_cons.mp h4).1 (List.mem_cons_self _ _)
          · exact h5 v (List.mem_cons_self _ _) hm'
        refine ⟨v, ⟨?_, ?_⟩, v :: rest, ?_, rfl⟩
        · exact hchain.1
        · cases hc : (x :: visited).contains v with
          | false => rfl
          | true => exact absurd ((contains_iff _ _).mp hc) hvnot
        · apply ih
          · rfl
          · exact h2
          · exact hchain.2
          · exact (List.nodup_cons.mp h4).2
          · intro z hz
            intro hmem
            rcases List.mem_cons.mp hmem with rfl | hm'
            · exact (List.nodup_cons.mp h4).1 (List.mem_cons_of_mem _ hz)
            · exact h5 z (List.mem_cons_of_mem _ hz) hm'
          · simpa using Nat.le_of_succ_le_succ hlen

/-- A duplicate-free list of IDs drawn from ns is no longer than ns. -/
theorem length_le_of_nodup_subset (l ns : List Int) (hn : l.Nodup)
    (hs : ∀ x ∈ l, x ∈ ns) : l.length ≤ ns.length := by
  calc l.length = l.toFinset.card := (List.toFinset_card_of_nodup hn).symm
    _ ≤ ns.toFinset.card :=
      Finset.card_le_card
        (fun x hx => List.mem_toFinset.mpr (hs x (List.mem_toFinset.mp hx)))
    _ ≤ ns.length := ns.toFinset_card_le

theorem chooseShortest_eq_none_iff (w : Int → Int → ℚ × Bool) (l : List (List Int)) :
    chooseShortest w l = none ↔ l = [] := by
  cases l with
  | nil => simp [chooseShortest]
  | cons p ps =>
    constructor
    · intro h
      exfalso
      unfold chooseShortest at h
      cases hc : chooseShortest w ps with
      | none => rw [hc] at h; exact Option.noConfusion h
      | some qw =>
        obtain ⟨q, wq⟩ := qw
        rw [hc] at h
        dsimp at h
        split at h <;> exact Option.noConfusion h
    · intro h
      exact absurd h (List.cons_ne_nil p ps)

/-- The selected entry belongs to the enumeration, carries its exact
weight, and its weight is minimal over the enumeration. -/
theorem chooseShortest_spec (w : Int → Int → ℚ × Bool) :
    ∀ (l : List (List Int)) (p : List Int) (wp : ℚ),
      chooseShortest w l = some (p, wp) →
      p ∈ l ∧ wp = pathWeight w p ∧ ∀ q ∈ l, wp ≤ pathWeight w q := by
  intro l
  induction l with
  | nil => intro p wp h; simp [chooseShortest] at h
  | cons r rs ih =>
    intro p wp h
    unfold chooseShortest at h
    cases hc : chooseShortest w rs with
    | none =>
      rw [hc] at h
      dsimp at h
      obtain ⟨rfl, rfl⟩ : r = p ∧ pathWeight w r = wp := by
        constructor <;> [exact congrArg Prod.fst (Option.some.inj h);
          exact congrArg Prod.snd (Option.some.inj h)]
      have hrs : rs = [] := (chooseShortest_eq_none_iff w rs).mp hc
      subst hrs
      refine ⟨List.mem_cons_self _ _, rfl, ?_⟩
      intro q hq
      rcases List.mem_cons.mp hq with rfl | hq'
      · exact le_refl _
      · exact absurd hq' (List.not_mem_nil q)
    | some qw =>
      obtain ⟨q, wq⟩ := qw
      rw [hc] at h
      dsimp at h
      obtain ⟨hqmem, hqw, hqmin⟩ := ih q wq hc
      by_cases hle : pathWeight w r ≤ wq
      · rw [if_pos hle] at h
        obtain ⟨rfl, rfl⟩ : r = p ∧ pathWeight w r = wp := by
          constructor <;> [exact congrArg Prod.fst (Option.some.inj h);
            exact congrArg Prod.snd (Option.some.inj h)]
        refine ⟨List.mem_cons_self _ _, rfl, ?_⟩
        intro sQ hs
        rcases List.mem_cons.mp hs with rfl | hs'
        · exact le_refl _
        · exact le_trans hle (hqmin sQ hs')
      · rw [if_neg hle] at h
        obtain ⟨rfl, rfl⟩ : q = p ∧ wq = wp := by
          constructor <;> [exact congrArg Prod.fst (Option.some.inj h);
            exact congrArg Prod.snd (Option.some.inj h)]
        refine ⟨List.mem_cons_of_mem _ hqmem, hqw, ?_⟩
        intro sQ hs
        rcases List.mem_cons.mp hs with rfl | hs'
        · exact le_of_lt (not_le.mp hle)
        · exact hqmin sQ hs'

/-- Soundness of the modelled oracle: a returned path starts at s, ends
at t, walks the masked view, repeats no node, and its reported weight is
its exact path weight. -/
theorem DijkstraFromTo_sound (s t : Int) (yk : yenKSPAdjuster) (p : List Int) (wt : ℚ)
    (h : DijkstraFromTo s t yk = some (p, wt)) :
    p.head? = some s ∧ p.getLast? = some t ∧ p.Chain' (maskedStep yk) ∧ p.Nodup ∧
      wt = pathWeight yk.G.w p := by
  unfold DijkstraFromTo at h
  obtain ⟨hmem, hw, -⟩ := chooseShortest_spec _ _ p wt h
  obtain ⟨h1, h2, h3, h4, -⟩ := dfsPaths_sound yk t _ [] s p hmem
  exact ⟨h1, h2, h3, h4, hw⟩

/-- Minimality of the modelled oracle over the loopless masked paths that
stay inside the node set. -/
theorem DijkstraFromTo_min (s t : Int) (yk : yenKSPAdjuster) (p : List Int) (wt : ℚ)
    (h : DijkstraFromTo s t yk = some (p, wt)) (q : List Int)
    (hq1 : q.head? = some s) (hq2 : q.getLast? = some t)
    (hq3 : q.Chain' (maskedStep yk)) (hq4 : q.Nodup)
    (hq5 : ∀ x ∈ q, x ∈ yk.G.nodes) :
    wt ≤ pathWeight yk.G.w q := by
  unfold DijkstraFromTo at h
  obtain ⟨-, -, hmin⟩ := chooseShortest_spec _ _ p wt h
  apply hmin
  apply dfsPaths_complete yk t _ [] s q hq1 hq2 hq3 hq4
  · intro x _ hx
    exact absurd hx (List.not_mem_nil x)
  · have := length_le_of_nodup_subset q yk.G.nodes hq4 hq5
    omega

/-- Reachability: if a loopless masked path from s to t inside the node
set exists at all, the modelled oracle returns a result. -/
theorem DijkstraFromTo_reach (s t : Int) (yk : yenKSPAdjuster) (q : List Int)
    (hq1 : q.head? = some s) (hq2 : q.getLast? = some t)
    (hq3 : q.Chain' (maskedStep yk)) (hq4 : q.Nodup)
    (hq5 : ∀ x ∈ q, x ∈ yk.G.nodes) :
    ∃ p wt, DijkstraFromTo s t yk = some (p, wt) := by
  have hmem : q ∈ dfsPaths yk t yk.G.nodes.length [] s := by
    apply dfsPaths_complete yk t _ [] s q hq1 hq2 hq3 hq4
    · intro x _ hx
      exact absurd hx (List.not_mem_nil x)
    · have := length_le_of_nodup_subset q yk.G.nodes hq4 hq5
      omega
  cases hc : DijkstraFromTo s t yk with
  | some pw =>
    obtain ⟨p1, w1⟩ := pw
    exact ⟨p1, w1, rfl⟩
  | none =>
    exfalso
    unfold DijkstraFromTo at hc
    rw [chooseShortest_eq_none_iff] at hc
    rw [hc] at hmem
    exact absurd hmem (List.not_mem_nil q)

/-- With both suppression sets empty the view enumerates exactly the
underlying adjacency. -/
theorem From_no_mask (G : WGraph) (u : Int) :
    yenKSPAdjuster.From { G := G, visitedNodes := [], visitedEdges := [] } u = G.adj u := by
  unfold yenKSPAdjuster.From yenKSPAdjuster.canWalk
  simp

theorem maskedStep_no_mask (G : WGraph) (u v : Int) :
    maskedStep { G := G, visitedNodes := [], visitedEdges := [] } u v ↔ v ∈ G.adj u := by
  unfold maskedStep
  rw [From_no_mask]

/-- The outer loop only appends accepted paths to the list it is given. -/
theorem yenLoop_extends (G : WGraph) (cost : ℚ) (t : Int) :
    ∀ (fuel : Nat) (paths : List (List Int)) (pot : List yenShortest),
      ∃ suff, yenLoop G cost t fuel paths pot = paths ++ suff := by
  intro fuel
  induction fuel with
  | zero => intro paths pot; exact ⟨[], by simp [yenLoop]⟩
  | succ fuel ih =>
    intro paths pot
    unfold yenLoop
    cases hs : sortByWeight (yenRound G cost t paths pot) with
    | nil => exact ⟨[], by simp⟩
    | cons best rest =>
      dsimp only
      by_cases hb : best.path.length ≤ 1 ∨ cost < best.weight
      · rw [if_pos hb]
        exact ⟨[], by simp⟩
      · rw [if_neg hb]
        obtain ⟨suff, hsuff⟩ := ih (paths ++ [best.path]) rest
        exact ⟨[best.path] ++ suff, by rw [hsuff, List.append_assoc]⟩

/-! Index and list utilities. -/

theorem getD_eq_getElem (l : List Int) (n : Nat) (h : n < l.length) :
    l.getD n 0 = l[n] := by
  rw [List.getD_eq_getElem?_getD, List.getElem?_eq_getElem h]
  rfl

theorem getD_mem (l : List Int) (n : Nat) (h : n < l.length) : l.getD n 0 ∈ l := by
  rw [getD_eq_getElem l n h]
  exact List.getElem_mem h

theorem head?_eq_getD (l : List Int) (h : l ≠ []) : l.head? = some (l.getD 0 0) := by
  cases l with
  | nil => exact absurd rfl h
  | cons a l' => rfl

theorem chain'_getD (R : Int → Int → Prop) (l : List Int) (hc : l.Chain' R) (i : Nat)
    (h : i + 1 < l.length) : R (l.getD i 0) (l.getD (i + 1) 0) := by
  rw [getD_eq_getElem _ _ (by omega), getD_eq_getElem _ _ h]
  exact List.chain'_iff_get.mp hc i (by omega)

theorem chain'_of_getD (R : Int → Int → Prop) (l : List Int)
    (h : ∀ i, i + 1 < l.length → R (l.getD i 0) (l.getD (i + 1) 0)) : l.Chain' R := by
  rw [List.chain'_iff_get]
  intro i hi
  have := h i (by omega)
  rwa [getD_eq_getElem _ _ (by omega), getD_eq_getElem _ _ (by omega)] at this

theorem nodup_getD_ne (l : List Int) (hn : l.Nodup) (i j : Nat) (hi : i < l.length)
    (hj : j < l.length) (hij : i ≠ j) : l.getD i 0 ≠ l.getD j 0 := by
  rw [getD_eq_getElem _ _ hi, getD_eq_getElem _ _ hj]
  intro he
  exact hij ((List.Nodup.getElem_inj_iff hn).mp he)

theorem getLast?_eq_getD (l : List Int) (h : l ≠ []) :
    l.getLast? = some (l.getD (l.length - 1) 0) := by
  have hl : 0 < l.length := List.length_pos.mpr h
  rw [List.getLast?_eq_getElem?, List.getElem?_eq_getElem (by omega),
    getD_eq_getElem _ _ (by omega)]

/-- In a loopless path ending at t, no interior position holds t. -/
theorem nodup_last_only (p : List Int) (t : Int) (hn : p.Nodup)
    (hlast : p.getLast? = some t) (i : Nat) (hi : i + 1 < p.length) :
    p.getD i 0 ≠ t := by
  have hne : p ≠ [] := by intro e; rw [e] at hlast; exact Option.noConfusion hlast
  have h1 := getLast?_eq_getD p hne
  rw [hlast] at h1
  have ht : p.getD (p.length - 1) 0 = t := (Option.some.inj h1).symm
  rw [← ht]
  exact nodup_getD_ne p hn i (p.length - 1) (by omega) (by omega) (by omega)

theorem take_getD (l : List Int) (n i : Nat) (h : i < n) :
    (l.take n).getD i 0 = l.getD i 0 := by
  rw [List.getD_eq_getElem?_getD, List.getD_eq_getElem?_getD, List.getElem?_take,
    if_pos h]

theorem getLast?_take (l : List Int) (n : Nat) (h : n < l.length) :
    (l.take (n + 1)).getLast? = some (l.getD n 0) := by
  rw [List.take_succ, List.getElem?_eq_getElem h]
  show (l.take n ++ [l[n]]).getLast? = _
  rw [getD_eq_getElem _ _ h]
  exact List.getLast?_concat _

theorem head?_take (l : List Int) (n : Nat) (hn : 0 < n) : (l.take n).head? = l.head? := by
  cases l with
  | nil => simp
  | cons a l' =>
    cases n with
    | zero => omega
    | succ m => simp

theorem head?_drop_getD (l : List Int) (n : Nat) (h : n < l.length) :
    (l.drop n).head? = some (l.getD n 0) := by
  rw [List.head?_drop, List.getElem?_eq_getElem h, getD_eq_getElem _ _ h]

theorem drop_getD (l : List Int) (n i : Nat) (h : n + i < l.length) :
    (l.drop n).getD i 0 = l.getD (n + i) 0 := by
  have hlen : (l.drop n).length = l.length - n := List.length_drop n l
  rw [getD_eq_getElem _ _ (by omega), getD_eq_getElem _ _ h]
  exact List.getElem_drop l

theorem getLast?_drop_eq (l : List Int) (n : Nat) (h : n < l.length) :
    (l.drop n).getLast? = l.getLast? := by
  have h1 : l.drop n ≠ [] := by
    intro e
    have := congrArg List.length e
    simp only [List.length_drop, List.length_nil] at this
    omega
  have h2 : l ≠ [] := by intro e; subst e; simp at h
  have hlen : (l.drop n).length = l.length - n := List.length_drop n l
  rw [getLast?_eq_getD _ h1, getLast?_eq_getD _ h2,
    drop_getD l n ((l.drop n).length - 1) (by omega)]
  congr 2
  omega

theorem mem_take_getD (l : List Int) (n : Nat) (x : Int) (h : x ∈ l.take n) :
    ∃ j, j < n ∧ j < l.length ∧ l.getD j 0 = x := by
  obtain ⟨j, hj, he⟩ := List.getElem_of_mem h
  rw [List.length_take] at hj
  have hj1 : j < n := lt_of_lt_of_le hj (min_le_left _ _)
  have hj2 : j < l.length := lt_of_lt_of_le hj (min_le_right _ _)
  refine ⟨j, hj1, hj2, ?_⟩
  rw [← take_getD l n j hj1, getD_eq_getElem _ _ (by rw [List.length_take]; exact hj)]
  exact he

theorem getD_mem_take (l : List Int) (n j : Nat) (hjn : j < n) (hjl : j < l.length) :
    l.getD j 0 ∈ l.take n := by
  rw [← take_getD l n j hjn]
  apply getD_mem
  rw [List.length_take]
  omega

theorem pathWeight_nonneg (G : WGraph)
    (hnneg : ∀ u v, v ∈ G.adj u → 0 ≤ (G.w u v).1) :
    ∀ p : List Int, p.Chain' (fun u v => v ∈ G.adj u) → 0 ≤ pathWeight G.w p := by
  intro p
  induction p with
  | nil => intro _; exact le_refl 0
  | cons u p' ih =>
    intro hc
    cases p' with
    | nil => exact le_refl 0
    | cons v rest =>
      rw [pathWeight_cons_cons]
      have h := List.chain'_cons.mp hc
      exact add_nonneg (hnneg u v h.1) (ih h.2)

/-! Common-prefix lemmas. -/

theorem sharedLen_nil_left (q : List Int) : sharedLen [] q = 0 := by
  cases q <;> rfl

theorem sharedLen_nil_right (p : List Int) : sharedLen p [] = 0 := by
  cases p <;> rfl

theorem sharedLen_cons_cons (a b : Int) (as bs : List Int) :
    sharedLen (a :: as) (b :: bs) = if a = b then sharedLen as bs + 1 else 0 := rfl

theorem sharedLen_le_left : ∀ p q : List Int, sharedLen p q ≤ p.length := by
  intro p
  induction p with
  | nil => intro q; rw [sharedLen_nil_left]; exact Nat.zero_le _
  | cons a as ih =>
    intro q
    cases q with
    | nil => rw [sharedLen_nil_right]; exact Nat.zero_le _
    | cons b bs =>
      rw [sharedLen_cons_cons]
      split
      · have := ih bs
        simp only [List.length_cons]
        omega
      · exact Nat.zero_le _

theorem sharedLen_le_right : ∀ p q : List Int, sharedLen p q ≤ q.length := by
  intro p
  induction p with
  | nil => intro q; rw [sharedLen_nil_left]; exact Nat.zero_le _
  | cons a as ih =>
    intro q
    cases q with
    | nil => rw [sharedLen_nil_right]; exact Nat.zero_le _
    | cons b bs =>
      rw [sharedLen_cons_cons]
      split
      · have := ih bs
        simp only [List.length_cons]
        omega
      · exact Nat.zero_le _

theorem take_sharedLen_eq : ∀ p q : List Int,
    p.take (sharedLen p q) = q.take (sharedLen p q) := by
  intro p
  induction p with
  | nil => intro q; rw [sharedLen_nil_left]; rfl
  | cons a as ih =>
    intro q
    cases q with
    | nil => rw [sharedLen_nil_right]; rfl
    | cons b bs =>
      rw [sharedLen_cons_cons]
      split
      · next hab =>
        subst hab
        simp only [List.take_succ_cons, List.cons.injEq, true_and]
        exact ih bs
      · rfl

theorem le_sharedLen_of_take_eq : ∀ (p q : List Int) (m : Nat), m ≤ q.length →
    p.take m = q.take m → m ≤ sharedLen p q := by
  intro p
  induction p with
  | nil =>
    intro q m hm ht
    have hl : (q.take m).length = 0 := by rw [← ht]; simp
    rw [List.length_take] at hl
    omega
  | cons a as ih =>
    intro q m hm ht
    cases m with
    | zero => exact Nat.zero_le _
    | succ m' =>
      cases q with
      | nil => simp at hm
      | cons b bs =>
        simp only [List.take_succ_cons, List.cons.injEq] at ht
        rw [sharedLen_cons_cons, if_pos ht.1]
        have := ih bs m' (by simpa using hm) ht.2
        omega

theorem sharedLen_getD_ne : ∀ p q : List Int, sharedLen p q < p.length →
    sharedLen p q < q.length →
    p.getD (sharedLen p q) 0 ≠ q.getD (sharedLen p q) 0 := by
  intro p
  induction p with
  | nil => intro q h _; rw [sharedLen_nil_left] at h; simp at h
  | cons a as ih =>
    intro q h1 h2
    cases q with
    | nil => rw [sharedLen_nil_right] at h2; simp at h2
    | cons b bs =>
      rw [sharedLen_cons_cons] at h1 h2 ⊢
      by_cases hab : a = b
      · rw [if_pos hab] at h1 h2 ⊢
        simp only [List.getD_cons_succ]
        exact ih bs (by simpa using h1) (by simpa using h2)
      · rw [if_neg hab]
        simpa using hab

theorem one_le_sharedLen (p q : List Int) (s : Int) (hp : p.head? = some s)
    (hq : q.head? = some s) : 1 ≤ sharedLen p q := by
  cases p with
  | nil => exact Option.noConfusion hp
  | cons a as =>
    cases q with
    | nil => exact Option.noConfusion hq
    | cons b bs =>
      simp only [List.head?_cons, Option.some.injEq] at hp hq
      rw [sharedLen_cons_cons, if_pos (hp.trans hq.symm)]
      omega

/-! Maximum shared prefix over a list of paths. -/

theorem sharedLen_le_maxShared (p : List Int) :
    ∀ (paths : List (List Int)) (q : List Int), q ∈ paths →
      sharedLen p q ≤ maxShared p paths := by
  intro paths
  induction paths with
  | nil => intro q hq; exact absurd hq (List.not_mem_nil q)
  | cons r rs ih =>
    intro q hq
    unfold maxShared
    simp only [List.map_cons, List.foldr_cons]
    rcases List.mem_cons.mp hq with rfl | hq'
    · exact le_max_left _ _
    · exact le_trans (ih q hq') (le_max_right _ _)

theorem maxShared_realized (p : List Int) :
    ∀ paths : List (List Int), paths ≠ [] →
      ∃ q ∈ paths, maxShared p paths = sharedLen p q := by
  intro paths
  induction paths with
  | nil => intro h; exact absurd rfl h
  | cons r rs ih =>
    intro _
    by_cases hrs : rs = []
    · subst hrs
      refine ⟨r, List.mem_cons_self _ _, ?_⟩
      unfold maxShared
      simp
    · obtain ⟨q, hq, he⟩ := ih hrs
      unfold maxShared at he ⊢
      simp only [List.map_cons, List.foldr_cons]
      rcases max_choice (sharedLen p r) ((rs.map (sharedLen p)).foldr max 0) with h | h
      · exact ⟨r, List.mem_cons_self _ _, h⟩
      · exact ⟨q, List.mem_cons_of_mem _ hq, h.trans he⟩

theorem maxShared_append (p : List Int) (paths : List (List Int)) (b : List Int) :
    maxShared p (paths ++ [b]) = max (maxShared p paths) (sharedLen p b) := by
  unfold maxShared
  induction paths with
  | nil => simp
  | cons r rs ih =>
    simp only [List.cons_append, List.map_cons, List.foldr_cons] at ih ⊢
    rw [ih]
    exact (max_assoc _ _ _).symm

/-! Characterization of the mask built for one spur index. -/

theorem removeEdge_mem (yk : yenKSPAdjuster) (u v : Int) (e : Int × Int) :
    e ∈ (yk.removeEdge u v).visitedEdges ↔
      e = (u, v) ∨ (yk.G.directed = false ∧ e = (v, u)) ∨ e ∈ yk.visitedEdges := by
  unfold yenKSPAdjuster.removeEdge
  cases hd : yk.G.directed with
  | true =>
    simp only [if_pos rfl]
    simp [List.mem_cons]
  | false =>
    simp [List.mem_cons]

theorem removeNode_foldl (l : List Int) :
    ∀ yk : yenKSPAdjuster,
      (l.foldl yenKSPAdjuster.removeNode yk).G = yk.G ∧
      (l.foldl yenKSPAdjuster.removeNode yk).visitedEdges = yk.visitedEdges ∧
      ∀ x, x ∈ (l.foldl yenKSPAdjuster.removeNode yk).visitedNodes ↔
        x ∈ l ∨ x ∈ yk.visitedNodes := by
  induction l with
  | nil => intro yk; exact ⟨rfl, rfl, fun x => by simp⟩
  | cons a l' ih =>
    intro yk
    simp only [List.foldl_cons]
    obtain ⟨h1, h2, h3⟩ := ih (yk.removeNode a)
    refine ⟨h1, h2, fun x => ?_⟩
    rw [h3 x]
    unfold yenKSPAdjuster.removeNode
    simp only [List.mem_cons]
    tauto

theorem maskEdgeStep_foldl (root : List Int) (n : Nat) :
    ∀ (paths : List (List Int)) (yk : yenKSPAdjuster),
      (paths.foldl (maskEdgeStep root n) yk).G = yk.G ∧
      (paths.foldl (maskEdgeStep root n) yk).visitedNodes = yk.visitedNodes ∧
      ∀ e, e ∈ (paths.foldl (maskEdgeStep root n) yk).visitedEdges ↔
        ((∃ a ∈ paths, matchesRoot a root n ∧
          (e = (a.getD n 0, a.getD (n + 1) 0) ∨
            (yk.G.directed = false ∧ e = (a.getD (n + 1) 0, a.getD n 0)))) ∨
          e ∈ yk.visitedEdges) := by
  intro paths
  induction paths with
  | nil => intro yk; exact ⟨rfl, rfl, fun e => by simp⟩
  | cons a ps ih =>
    intro yk
    simp only [List.foldl_cons]
    obtain ⟨h1, h2, h3⟩ := ih (maskEdgeStep root n yk a)
    have hGstep : (maskEdgeStep root n yk a).G = yk.G := by
      unfold maskEdgeStep yenKSPAdjuster.removeEdge
      split
      · split <;> rfl
      · rfl
    have hNstep : (maskEdgeStep root n yk a).visitedNodes = yk.visitedNodes := by
      unfold maskEdgeStep yenKSPAdjuster.removeEdge
      split
      · split <;> rfl
      · rfl
    simp only [hGstep] at h3
    refine ⟨h1.trans hGstep, h2.trans hNstep, fun e => ?_⟩
    rw [h3 e]
    have hmem : ∀ e', e' ∈ (maskEdgeStep root n yk a).visitedEdges ↔
        ((matchesRoot a root n ∧
          (e' = (a.getD n 0, a.getD (n + 1) 0) ∨
            (yk.G.directed = false ∧ e' = (a.getD (n + 1) 0, a.getD n 0)))) ∨
          e' ∈ yk.visitedEdges) := by
      intro e'
      unfold maskEdgeStep
      by_cases hm : matchesRoot a root n
      · rw [if_pos hm, removeEdge_mem]
        constructor
        · rintro (h | h | h)
          · exact Or.inl ⟨hm, Or.inl h⟩
          · exact Or.inl ⟨hm, Or.inr h⟩
          · exact Or.inr h
        · rintro (⟨-, h | h⟩ | h)
          · exact Or.inl h
          · exact Or.inr (Or.inl h)
          · exact Or.inr (Or.inr h)
      · rw [if_neg hm]
        constructor
        · intro h; exact Or.inr h
        · rintro (⟨hm', -⟩ | h)
          · exact absurd hm' hm
          · exact h
    rw [hmem e]
    constructor
    · rintro (⟨b, hb, hbm, hbe⟩ | ⟨hma, hae⟩ | he)
      · exact Or.inl ⟨b, List.mem_cons_of_mem _ hb, hbm, hbe⟩
      · exact Or.inl ⟨a, List.mem_cons_self _ _, hma, hae⟩
      · exact Or.inr he
    · rintro (⟨b, hb, hbm, hbe⟩ | he)
      · rcases List.mem_cons.mp hb with rfl | hb'
        · exact Or.inr (Or.inl ⟨hbm, hbe⟩)
        · exact Or.inl ⟨b, hb', hbm, hbe⟩
      · exact Or.inr (Or.inr he)

theorem buildMask_G (G : WGraph) (paths : List (List Int)) (root : List Int) (n : Nat) :
    (buildMask G paths root n).G = G := by
  unfold buildMask
  obtain ⟨h1, -, -⟩ := removeNode_foldl root.dropLast
    (paths.foldl (maskEdgeStep root n) { G := G, visitedNodes := [], visitedEdges := [] })
  rw [h1]
  exact (maskEdgeStep_foldl root n paths _).1

theorem buildMask_nodes (G : WGraph) (paths : List (List Int)) (root : List Int)
    (n : Nat) (x : Int) :
    x ∈ (buildMask G paths root n).visitedNodes ↔ x ∈ root.dropLast := by
  unfold buildMask
  obtain ⟨-, -, h3⟩ := removeNode_foldl root.dropLast
    (paths.foldl (maskEdgeStep root n) { G := G, visitedNodes := [], visitedEdges := [] })
  rw [h3 x, (maskEdgeStep_foldl root n paths _).2.1]
  simp

theorem buildMask_edges (G : WGraph) (paths : List (List Int)) (root : List Int)
    (n : Nat) (e : Int × Int) :
    e ∈ (buildMask G paths root n).visitedEdges ↔
      ∃ a ∈ paths, matchesRoot a root n ∧
        (e = (a.getD n 0, a.getD (n + 1) 0) ∨
          (G.directed = false ∧ e = (a.getD (n + 1) 0, a.getD n 0))) := by
  unfold buildMask
  obtain ⟨-, h2, -⟩ := removeNode_foldl root.dropLast
    (paths.foldl (maskEdgeStep root n) { G := G, visitedNodes := [], visitedEdges := [] })
  rw [h2, (maskEdgeStep_foldl root n paths _).2.2 e]
  simp

/-! Path comparison and pool sorting. -/

theorem isSamePath_refl : ∀ a : List Int, isSamePath a a = true := by
  intro a
  induction a with
  | nil => rfl
  | cons x xs ih =>
    unfold isSamePath at ih ⊢
    rw [if_neg (by simp)] at ih ⊢
    simp only [List.zip_cons_cons, List.all_cons, beq_self_eq_true, Bool.true_and]
    exact ih

theorem isSamePath_iff : ∀ a b : List Int, isSamePath a b = true ↔ a = b := by
  intro a
  induction a with
  | nil =>
    intro b
    cases b with
    | nil => simp [isSamePath]
    | cons y ys => simp [isSamePath]
  | cons x xs ih =>
    intro b
    cases b with
    | nil => simp [isSamePath]
    | cons y ys =>
      constructor
      · intro h
        unfold isSamePath at h
        by_cases hl : (x :: xs).length ≠ (y :: ys).length
        · rw [if_pos hl] at h
          exact Bool.noConfusion h
        · rw [if_neg hl] at h
          push_neg at hl
          simp only [List.length_cons, Nat.succ.injEq] at hl
          simp only [List.zip_cons_cons, List.all_cons, Bool.and_eq_true,
            beq_iff_eq] at h
          obtain ⟨hxy, hrest⟩ := h
          subst hxy
          have hxs : xs = ys := by
            apply (ih ys).mp
            unfold isSamePath
            rw [if_neg (by omega)]
            exact hrest
          rw [hxs]
      · intro he
        rw [he]
        exact isSamePath_refl _

theorem insertByWeight_perm (c : yenShortest) :
    ∀ l, List.Perm (insertByWeight c l) (c :: l) := by
  intro l
  induction l with
  | nil => exact List.Perm.refl _
  | cons d ds ih =>
    unfold insertByWeight
    split
    · exact List.Perm.refl _
    · exact (List.Perm.cons d ih).trans (List.Perm.swap c d ds)

theorem sortByWeight_perm : ∀ l, List.Perm (sortByWeight l) l := by
  intro l
  induction l with
  | nil => exact List.Perm.refl _
  | cons c cs ih =>
    unfold sortByWeight
    exact (insertByWeight_perm c (sortByWeight cs)).trans (List.Perm.cons c ih)

theorem insertByWeight_pairwise (c : yenShortest) :
    ∀ l, l.Pairwise (fun a b => a.weight ≤ b.weight) →
      (insertByWeight c l).Pairwise (fun a b => a.weight ≤ b.weight) := by
  intro l
  induction l with
  | nil => intro _; exact List.pairwise_singleton _ _
  | cons d ds ih =>
    intro h
    obtain ⟨hd, hds⟩ := List.pairwise_cons.mp h
    unfold insertByWeight
    split
    · next hle =>
      refine List.pairwise_cons.mpr ⟨?_, h⟩
      intro b hb
      rcases List.mem_cons.mp hb with rfl | hb'
      · exact hle
      · exact le_trans hle (hd b hb')
    · next hle =>
      refine List.pairwise_cons.mpr ⟨?_, ih hds⟩
      intro b hb
      have hb' := (insertByWeight_perm c ds).mem_iff.mp hb
      rcases List.mem_cons.mp hb' with rfl | hb''
      · exact le_of_lt (not_le.mp hle)
      · exact hd b hb''

theorem sortByWeight_pairwise :
    ∀ l, (sortByWeight l).Pairwise (fun a b => a.weight ≤ b.weight) := by
  intro l
  induction l with
  | nil => exact List.Pairwise.nil
  | cons c cs ih =>
    unfold sortByWeight
    exact insertByWeight_pairwise c (sortByWeight cs) ih

/-! Auxiliary facts used by the candidate analysis. -/

theorem dropLast_take (l : List Int) (n : Nat) (h : n < l.length) :
    (l.take (n + 1)).dropLast = l.take n := by
  rw [List.dropLast_eq_take, List.take_take]
  congr 1
  simp only [List.length_take]
  omega

theorem head?_append_left (l1 l2 : List Int) (h : l1 ≠ []) :
    (l1 ++ l2).head? = l1.head? := by
  cases l1 with
  | nil => exact absurd rfl h
  | cons a l' => rfl

theorem take_one_head (p : List Int) (a : Int) (h : p.head? = some a) :
    p.take 1 = [a] := by
  cases p with
  | nil => exact Option.noConfusion h
  | cons x p' =>
    simp only [List.head?_cons, Option.some.injEq] at h
    rw [h]
    rfl

theorem two_le_length_of_head_last (p : List Int) (a b : Int) (h1 : p.head? = some a)
    (h2 : p.getLast? = some b) (hne : a ≠ b) : 2 ≤ p.length := by
  cases p with
  | nil => exact Option.noConfusion h1
  | cons x p' =>
    cases p' with
    | nil =>
      simp only [List.head?_cons, Option.some.injEq] at h1
      simp only [List.getLast?_singleton, Option.some.injEq] at h2
      exact absurd (h1.symm.trans h2) hne
    | cons y p'' => simp

theorem chain'_tail_exists (R : Int → Int → Prop) :
    ∀ l : List Int, l.Chain' R → ∀ y ∈ l.tail, ∃ x, R x y := by
  intro l
  induction l with
  | nil => intro _ y hy; simp at hy
  | cons a l' ih =>
    intro hc y hy
    cases l' with
    | nil => simp at hy
    | cons b l'' =>
      have h := List.chain'_cons.mp hc
      rcases List.mem_cons.mp hy with rfl | hy'
      · exact ⟨a, h.1⟩
      · exact ih h.2 y hy'

theorem forall_mem_split (p : List Int) (h0 : Int) (P : Int → Prop)
    (hh : p.head? = some h0) (hP : P h0) (ht : ∀ x ∈ p.tail, P x) : ∀ x ∈ p, P x := by
  cases p with
  | nil => intro x hx; simp at hx
  | cons a p' =>
    simp only [List.head?_cons, Option.some.injEq] at hh
    subst hh
    intro x hx
    rcases List.mem_cons.mp hx with rfl | hx'
    · exact hP
    · exact ht x hx'

theorem append_getD_right (l1 l2 : List Int) (i : Nat) (h : l1.length ≤ i) :
    (l1 ++ l2).getD i 0 = l2.getD (i - l1.length) 0 := by
  rw [List.getD_eq_getElem?_getD, List.getD_eq_getElem?_getD,
    List.getElem?_append_right h]

theorem take_prefix_getD (a b : List Int) (m i : Nat) (ht : a.take m = b.take m)
    (hi : i < m) : a.getD i 0 = b.getD i 0 := by
  rw [← take_getD a m i hi, ← take_getD b m i hi, ht]

/-- One-step consequences of walking the mask built for a spur index. -/
theorem maskedStep_buildMask (G : WGraph) (paths : List (List Int)) (root : List Int)
    (n : Nat) (u v : Int) (h : maskedStep (buildMask G paths root n) u v) :
    v ∈ G.adj u ∧ u ∉ root.dropLast ∧ v ∉ root.dropLast ∧
      (u, v) ∉ (buildMask G paths root n).visitedEdges := by
  unfold maskedStep at h
  have hm := (mem_From_iff _ u v).mp h
  refine ⟨?_, ?_, ?_, hm.2.2.2⟩
  · have := hm.2.1
    rwa [buildMask_G] at this
  · intro hc
    exact hm.1 ((buildMask_nodes G paths root n u).mpr hc)
  · intro hc
    exact hm.2.2.1 ((buildMask_nodes G paths root n v).mpr hc)

/-- Full analysis of the candidate assembled after a successful spur
query: it is a valid loopless s-t path of at least two nodes, its stored
weight is exact, the root is its prefix, and it differs from every
accepted path because the mask suppressed all accepted deviation edges. -/
theorem yenCand_spec (G : WGraph) (s t : Int)
    (hclosed : ∀ u v, v ∈ G.adj u → v ∈ G.nodes)
    (paths : List (List Int)) (hpvalid : ∀ p ∈ paths, ValidPath G s t p)
    (prev : List Int) (hprev : prev ∈ paths)
    (n : Nat) (hn : n + 2 ≤ prev.length)
    (spath : List Int) (wt : ℚ)
    (hd : DijkstraFromTo (prev.getD n 0) t (buildMask G paths (prev.take (n + 1)) n) =
      some (spath, wt)) :
    ValidPath G s t (yenCand G prev n spath wt).path ∧
      2 ≤ (yenCand G prev n spath wt).path.length ∧
      (yenCand G prev n spath wt).weight =
        pathWeight G.w (yenCand G prev n spath wt).path ∧
      (yenCand G prev n spath wt).path.take (n + 1) = prev.take (n + 1) ∧
      (yenCand G prev n spath wt).path ∉ paths := by
  obtain ⟨hpne, hphead, hplast, hpnodup, hpchain, hpnodes⟩ := hpvalid prev hprev
  obtain ⟨s1, s2, s3, s4, s5⟩ := DijkstraFromTo_sound _ _ _ _ _ hd
  rw [buildMask_G] at s5
  have hspur_ne_t : prev.getD n 0 ≠ t :=
    nodup_last_only prev t hpnodup hplast n (by omega)
  have hsp_ne : spath ≠ [] := by
    intro e; rw [e] at s1; exact Option.noConfusion s1
  have hsp_len : 2 ≤ spath.length :=
    two_le_length_of_head_last spath _ t s1 s2 hspur_ne_t
  have hrootlen : (prev.take (n + 1)).length = n + 1 := by
    rw [List.length_take]; omega
  have hrootDL : (prev.take (n + 1)).dropLast = prev.take n :=
    dropLast_take prev n (by omega)
  have hrootlast : (prev.take (n + 1)).getLast? = some (prev.getD n 0) :=
    getLast?_take prev n (by omega)
  have hstep : ∀ u v, maskedStep (buildMask G paths (prev.take (n + 1)) n) u v →
      v ∈ G.adj u ∧ u ∉ prev.take n ∧ v ∉ prev.take n ∧
        (u, v) ∉ (buildMask G paths (prev.take (n + 1)) n).visitedEdges := by
    intro u v h
    have := maskedStep_buildMask G paths (prev.take (n + 1)) n u v h
    rwa [hrootDL] at this
  have hspchain : spath.Chain' (fun u v => v ∈ G.adj u) :=
    List.Chain'.imp (fun a b hab => (hstep a b hab).1) s3
  have hsptail_nodes : ∀ x ∈ spath.tail, x ∈ G.nodes := by
    intro x hx
    obtain ⟨u, hu⟩ := chain'_tail_exists _ spath s3 x hx
    exact hclosed u x (hstep u x hu).1
  have hsptail_nb : ∀ x ∈ spath.tail, x ∉ prev.take n := by
    intro x hx
    obtain ⟨u, hu⟩ := chain'_tail_exists _ spath s3 x hx
    exact (hstep u x hu).2.2.1
  have hspur_mem : prev.getD n 0 ∈ prev := getD_mem prev n (by omega)
  have hspur_node : prev.getD n 0 ∈ G.nodes := hpnodes _ hspur_mem
  have hspur_nb : prev.getD n 0 ∉ prev.take n := by
    intro hc
    obtain ⟨j, hj1, hj2, hj3⟩ := mem_take_getD prev n _ hc
    exact nodup_getD_ne prev hpnodup j n hj2 (by omega) (by omega) hj3
  have hsp_nodes : ∀ x ∈ spath, x ∈ G.nodes :=
    forall_mem_split spath _ _ s1 hspur_node hsptail_nodes
  have hsp_nb : ∀ x ∈ spath, x ∉ prev.take n :=
    forall_mem_split spath _ _ s1 hspur_nb hsptail_nb
  have htake : (yenCand G prev n spath wt).path.take (n + 1) = prev.take (n + 1) := by
    unfold yenCand
    by_cases h1 : 1 < (prev.take (n + 1)).length
    · rw [if_pos h1]
      dsimp only
      rw [hrootDL, List.take_append_eq_append_take]
      have hlentn : (prev.take n).length = n := by rw [List.length_take]; omega
      rw [List.take_of_length_le (by rw [List.length_take]; omega), hlentn]
      have h11 : n + 1 - n = 1 := by omega
      rw [h11, take_one_head spath _ s1, List.take_succ,
        List.getElem?_eq_getElem (show n < prev.length by omega),
        getD_eq_getElem _ _ (show n < prev.length by omega)]
      rfl
    · rw [if_neg h1]
      dsimp only
      have hn0 : n = 0 := by omega
      subst hn0
      rw [take_one_head spath _ s1, take_one_head prev _ (head?_eq_getD prev hpne)]
  have hlen2 : 2 ≤ (yenCand G prev n spath wt).path.length := by
    unfold yenCand
    by_cases h1 : 1 < (prev.take (n + 1)).length
    · rw [if_pos h1]
      dsimp only
      rw [List.length_append]
      omega
    · rw [if_neg h1]
      dsimp only
      exact hsp_len
  have hexact : (yenCand G prev n spath wt).weight =
      pathWeight G.w (yenCand G prev n spath wt).path := by
    unfold yenCand
    by_cases h1 : 1 < (prev.take (n + 1)).length
    · rw [if_pos h1]
      dsimp only
      rw [pathWeight_glue G.w spath (prev.take (n + 1)) (prev.getD n 0) hrootlast s1, s5]
      ring
    · rw [if_neg h1]
      dsimp only
      exact s5
  have hvalid : ValidPath G s t (yenCand G prev n spath wt).path := by
    unfold yenCand
    by_cases h1 : 1 < (prev.take (n + 1)).length
    · rw [if_pos h1]
      dsimp only
      have hnpos : 1 ≤ n := by omega
      have hlentn : (prev.take n).length = n := by rw [List.length_take]; omega
      have hDLne : (prev.take (n + 1)).dropLast ≠ [] := by
        rw [hrootDL]
        intro e
        have := congrArg List.length e
        rw [hlentn] at this
        simp at this
        omega
      refine ⟨?_, ?_, ?_, ?_, ?_, ?_⟩
      · intro e
        exact hsp_ne (List.append_eq_nil.mp e).2
      · rw [head?_append_left _ _ hDLne, hrootDL, head?_take prev n (by omega)]
        exact hphead
      · rw [List.getLast?_append_of_ne_nil _ hsp_ne]
        exact s2
      · refine List.nodup_append.mpr ⟨?_, s4, ?_⟩
        · rw [hrootDL]
          exact hpnodup.sublist (List.take_sublist n prev)
        · intro a ha hb
          rw [hrootDL] at ha
          exact hsp_nb a hb ha
      · refine List.chain'_append.mpr ⟨?_, hspchain, ?_⟩
        · rw [hrootDL]
          exact hpchain.take n
        · intro x hx y hy
          rw [hrootDL] at hx
          have hn1 : n = (n - 1) + 1 := by omega
          rw [hn1, getLast?_take prev (n - 1) (by omega)] at hx
          simp only [Option.mem_def, Option.some.injEq] at hx
          rw [s1] at hy
          simp only [Option.mem_def, Option.some.injEq] at hy
          subst hx
          subst hy
          have := chain'_getD _ prev hpchain (n - 1) (by omega)
          rwa [show n - 1 + 1 = n from by omega] at this
      · intro x hx
        rcases List.mem_append.mp hx with hx' | hx'
        · rw [hrootDL] at hx'
          exact hpnodes x ((List.take_sublist n prev).subset hx')
        · exact hsp_nodes x hx'
    · rw [if_neg h1]
      dsimp only
      have hn0 : n = 0 := by omega
      have hs0 : prev.getD 0 0 = s := by
        have := head?_eq_getD prev hpne
        rw [hphead] at this
        exact (Option.some.inj this).symm
      refine ⟨hsp_ne, ?_, s2, s4, hspchain, hsp_nodes⟩
      rw [s1, hn0, hs0]
  have hfresh : (yenCand G prev n spath wt).path ∉ paths := by
    intro hmem
    have hclen : n + 2 ≤ (yenCand G prev n spath wt).path.length := by
      unfold yenCand
      by_cases h1 : 1 < (prev.take (n + 1)).length
      · rw [if_pos h1]
        dsimp only
        rw [List.length_append, hrootDL, List.length_take]
        omega
      · rw [if_neg h1]
        dsimp only
        have hn0 : n = 0 := by omega
        omega
    have hmr : matchesRoot (yenCand G prev n spath wt).path (prev.take (n + 1)) n :=
      ⟨by omega, htake⟩
    have hedge : ((yenCand G prev n spath wt).path.getD n 0,
        (yenCand G prev n spath wt).path.getD (n + 1) 0) ∈
        (buildMask G paths (prev.take (n + 1)) n).visitedEdges := by
      rw [buildMask_edges]
      exact ⟨(yenCand G prev n spath wt).path, hmem, hmr, Or.inl rfl⟩
    have hcn : (yenCand G prev n spath wt).path.getD n 0 = prev.getD n 0 :=
      take_prefix_getD _ prev (n + 1) n htake (by omega)
    have hcn1 : (yenCand G prev n spath wt).path.getD (n + 1) 0 = spath.getD 1 0 := by
      unfold yenCand
      by_cases h1 : 1 < (prev.take (n + 1)).length
      · rw [if_pos h1]
        dsimp only
        have hlenDL : (prev.take (n + 1)).dropLast.length = n := by
          rw [hrootDL, List.length_take]
          omega
        rw [append_getD_right _ _ (n + 1) (by omega), hlenDL]
        congr 1
        omega
      · rw [if_neg h1]
        dsimp only
        have hn0 : n = 0 := by omega
        rw [hn0]
    have hstep1 : maskedStep (buildMask G paths (prev.take (n + 1)) n)
        (spath.getD 0 0) (spath.getD 1 0) :=
      chain'_getD _ spath s3 0 (by omega)
    have hsp0 : spath.getD 0 0 = prev.getD n 0 := by
      have := head?_eq_getD spath hsp_ne
      rw [s1] at this
      exact (Option.some.inj this).symm
    have hnotedge := (hstep _ _ hstep1).2.2.2
    rw [hsp0] at hnotedge
    rw [hcn, hcn1] at hedge
    exact hnotedge hedge
  exact ⟨hvalid, hlen2, hexact, htake, hfresh⟩

/-- One spur step only appends to the pool. -/
theorem spurStep_extends (G : WGraph) (cost : ℚ) (t : Int) (paths : List (List Int))
    (prev : List Int) (pot : List yenShortest) (n : Nat) :
    ∃ extra, spurStep G cost t paths prev pot n = pot ++ extra := by
  unfold spurStep
  cases hq : DijkstraFromTo (prev.getD n 0) t (buildMask G paths (prev.take (n + 1)) n) with
  | none => exact ⟨[], (List.append_nil pot).symm⟩
  | some pw =>
    obtain ⟨spath, wt⟩ := pw
    dsimp only
    by_cases h1 : cost < wt
    · rw [if_pos h1]; exact ⟨[], (List.append_nil pot).symm⟩
    · rw [if_neg h1]
      by_cases h2 : pot.any
          (fun c => isSamePath c.path (yenCand G prev n spath wt).path) = true
      · rw [if_pos h2]; exact ⟨[], (List.append_nil pot).symm⟩
      · rw [if_neg h2]; exact ⟨[yenCand G prev n spath wt], rfl⟩

/-- One spur step preserves the pool's structural invariant. -/
theorem spurStep_potinv (G : WGraph) (cost : ℚ) (s t : Int)
    (hclosed : ∀ u v, v ∈ G.adj u → v ∈ G.nodes)
    (paths : List (List Int)) (hpvalid : ∀ p ∈ paths, ValidPath G s t p)
    (prev : List Int) (hprev : prev ∈ paths)
    (pot : List yenShortest) (n : Nat) (hn : n + 2 ≤ prev.length)
    (hpot : PotInv G s t paths pot) :
    PotInv G s t paths (spurStep G cost t paths prev pot n) := by
  unfold spurStep
  cases hq : DijkstraFromTo (prev.getD n 0) t (buildMask G paths (prev.take (n + 1)) n) with
  | none => exact hpot
  | some pw =>
    obtain ⟨spath, wt⟩ := pw
    dsimp only
    by_cases h1 : cost < wt
    · rw [if_pos h1]; exact hpot
    · rw [if_neg h1]
      by_cases h2 : pot.any
          (fun c => isSamePath c.path (yenCand G prev n spath wt).path) = true
      · rw [if_pos h2]; exact hpot
      · rw [if_neg h2]
        obtain ⟨hv, hl, he, ht, hf⟩ :=
          yenCand_spec G s t hclosed paths hpvalid prev hprev n hn spath wt hq
        obtain ⟨hmem, hnodup⟩ := hpot
        constructor
        · intro c hc
          rcases List.mem_append.mp hc with hc' | hc'
          · exact hmem c hc'
          · rw [List.mem_singleton] at hc'
            subst hc'
            exact ⟨hv, hl, he, hf⟩
        · rw [List.map_append]
          refine List.nodup_append.mpr ⟨hnodup, List.nodup_singleton _, ?_⟩
          intro a ha hb
          simp only [List.map_cons, List.map_nil, List.mem_singleton] at hb
          subst hb
          rw [List.mem_map] at ha
          obtain ⟨c, hc, hcp⟩ := ha
          apply h2
          rw [List.any_eq_true]
          exact ⟨c, hc, by rw [isSamePath_iff, hcp]⟩

/-- Two distinct loopless paths ending at the same target that share a
prefix of m + 1 nodes both extend strictly beyond it. -/
theorem shared_strict (q prevp : List Int) (t : Int) (m : Nat)
    (hqnodup : q.Nodup) (hqlast : q.getLast? = some t)
    (hpnodup : prevp.Nodup) (hplast : prevp.getLast? = some t)
    (hne : q ≠ prevp)
    (ht : q.take (m + 1) = prevp.take (m + 1))
    (hmq : m + 1 ≤ q.length) (hmp : m + 1 ≤ prevp.length) :
    m + 2 ≤ q.length ∧ m + 2 ≤ prevp.length := by
  have hqlen : m + 2 ≤ q.length := by
    by_contra hcon
    have hqm : q.length = m + 1 := by omega
    have hq1 : q = prevp.take (m + 1) := by
      rw [← ht, List.take_of_length_le (by omega)]
    by_cases hpm : prevp.length = m + 1
    · have : prevp = prevp.take (m + 1) := (List.take_of_length_le (by omega)).symm
      exact hne (hq1.trans this.symm)
    · have hlt : m + 1 < prevp.length := by omega
      have := getLast?_take prevp m (by omega)
      rw [← hq1, hqlast] at this
      have hmt : prevp.getD m 0 = t := (Option.some.inj this).symm
      exact nodup_last_only prevp t hpnodup hplast m (by omega) hmt
  refine ⟨hqlen, ?_⟩
  by_contra hcon
  have hpm : prevp.length = m + 1 := by omega
  have hp1 : prevp = q.take (m + 1) := by
    rw [ht, List.take_of_length_le (by omega)]
  have := getLast?_take q m (by omega)
  rw [← hp1, hplast] at this
  have hmt : q.getD m 0 = t := (Option.some.inj this).symm
  exact nodup_last_only q t hqnodup hqlast m (by omega) hmt

/-- Key deviation lemma: if q is a valid affordable unaccepted path whose
maximal shared prefix with the accepted list is realized by prev with
n + 1 shared nodes, then the spur step at index n leaves a pool entry at
most as heavy as q sharing the same n + 1 node prefix. -/
theorem spurStep_witness (G : WGraph) (cost : ℚ) (s t : Int)
    (hclosed : ∀ u v, v ∈ G.adj u → v ∈ G.nodes)
    (hnneg : ∀ u v, v ∈ G.adj u → 0 ≤ (G.w u v).1)
    (paths : List (List Int)) (hpvalid : ∀ p ∈ paths, ValidPath G s t p)
    (prev : List Int) (hprev : prev ∈ paths)
    (q : List Int) (hq : ValidPath G s t q) (hqcost : pathWeight G.w q ≤ cost)
    (hqfresh : q ∉ paths)
    (n : Nat) (hshared : sharedLen q prev = n + 1)
    (hmax : ∀ a ∈ paths, sharedLen q a ≤ n + 1) :
    ∀ pot, PotInv G s t paths pot →
      ∃ c ∈ spurStep G cost t paths prev pot n,
        c.weight ≤ pathWeight G.w q ∧ c.path.take (n + 1) = q.take (n + 1) := by
  obtain ⟨hqne, hqhead, hqlast, hqnodup, hqchain, hqnodes⟩ := hq
  obtain ⟨hpne, hphead, hplast, hpnodup, hpchain, hpnodes⟩ := hpvalid prev hprev
  have hq1 : n + 1 ≤ q.length := hshared ▸ sharedLen_le_left q prev
  have hp1 : n + 1 ≤ prev.length := hshared ▸ sharedLen_le_right q prev
  have htqp : q.take (n + 1) = prev.take (n + 1) := by
    have := take_sharedLen_eq q prev
    rwa [hshared] at this
  have hneq : q ≠ prev := fun e => hqfresh (e ▸ hprev)
  obtain ⟨hq2, hp2⟩ :=
    shared_strict q prev t n hqnodup hqlast hpnodup hplast hneq htqp hq1 hp1
  have htqpn : q.take n = prev.take n := by
    have h1 : q.take n = (q.take (n + 1)).take n := by
      rw [List.take_take]
      congr 1
      omega
    have h2 : prev.take n = (prev.take (n + 1)).take n := by
      rw [List.take_take]
      congr 1
      omega
    rw [h1, h2, htqp]
  have hqn_eq : q.getD n 0 = prev.getD n 0 :=
    take_prefix_getD q prev (n + 1) n htqp (by omega)
  have hrootDL : (prev.take (n + 1)).dropLast = prev.take n :=
    dropLast_take prev n (by omega)
  -- per-accepted-path maximality at position n + 1
  have hmaxa : ∀ a ∈ paths, matchesRoot a (prev.take (n + 1)) n →
      a.getD (n + 1) 0 ≠ q.getD (n + 1) 0 := by
    intro a ha hmr
    obtain ⟨hva, hla, hlasta, hnda, hcha, hnoa⟩ := hpvalid a ha
    obtain ⟨hna, hta⟩ := hmr
    have hta' : a.take (n + 1) = q.take (n + 1) := by rw [hta, htqp]
    have halen : n + 1 ≤ a.length := by
      have := congrArg List.length hta'
      rw [List.length_take, List.length_take] at this
      omega
    have hsa : sharedLen q a = n + 1 := by
      have hge := le_sharedLen_of_take_eq q a (n + 1) halen hta'.symm
      have hle := hmax a ha
      omega
    have hanq : a ≠ q := by
      intro e
      rw [e] at ha
      exact hqfresh ha
    obtain ⟨-, ha2⟩ := shared_strict q a t n hqnodup hqlast hnda hlasta
      (fun e => hanq e.symm) hta'.symm hq1 halen
    have := sharedLen_getD_ne q a (by omega) (by omega)
    rw [hsa] at this
    exact fun e => this e.symm
  -- the suffix of q from the spur is a path of the masked view
  have hsuf_head : (q.drop n).head? = some (prev.getD n 0) := by
    rw [head?_drop_getD q n (by omega), hqn_eq]
  have hsuf_last : (q.drop n).getLast? = some t := by
    rw [getLast?_drop_eq q n (by omega)]
    exact hqlast
  have hsuf_nodup : (q.drop n).Nodup := hqnodup.sublist (List.drop_sublist n q)
  have hsuf_len : (q.drop n).length = q.length - n := List.length_drop n q
  have hsuf_nodes : ∀ x ∈ q.drop n, x ∈ (buildMask G paths (prev.take (n + 1)) n).G.nodes := by
    intro x hx
    rw [buildMask_G]
    exact hqnodes x ((List.drop_sublist n q).subset hx)
  have hnotmem_take : ∀ i, n ≤ i → i < q.length → q.getD i 0 ∉ prev.take n := by
    intro i hni hil hc
    rw [← htqpn] at hc
    obtain ⟨j, hj1, hj2, hj3⟩ := mem_take_getD q n _ hc
    exact nodup_getD_ne q hqnodup j i hj2 hil (by omega) hj3
  have hsuf_chain : (q.drop n).Chain' (maskedStep (buildMask G paths (prev.take (n + 1)) n)) := by
    apply chain'_of_getD
    intro i hi
    rw [hsuf_len] at hi
    rw [drop_getD q n i (by omega), drop_getD q n (i + 1) (by omega)]
    unfold maskedStep
    rw [mem_From_iff]
    refine ⟨?_, ?_, ?_, ?_⟩
    · intro hc
      rw [buildMask_nodes, hrootDL] at hc
      exact hnotmem_take (n + i) (by omega) (by omega) hc
    · rw [buildMask_G]
      have := chain'_getD _ q hqchain (n + i) (by omega)
      rwa [show n + i + 1 = n + (i + 1) from by omega] at this
    · intro hc
      rw [buildMask_nodes, hrootDL] at hc
      rw [show n + (i + 1) = n + i + 1 from by omega] at hc
      exact hnotmem_take (n + i + 1) (by omega) (by omega) hc
    · intro hc
      rw [buildMask_edges] at hc
      obtain ⟨a, ha, hmr, hcase⟩ := hc
      have han : a.getD n 0 = q.getD n 0 := by
        have := take_prefix_getD a q (n + 1) n (by rw [hmr.2, htqp]) (by omega)
        exact this
      rcases hcase with he | ⟨-, he⟩
      · have hx : q.getD (n + i) 0 = a.getD n 0 := congrArg Prod.fst he
        rw [han] at hx
        have hi0 : i = 0 := by
          by_contra hine
          exact nodup_getD_ne q hqnodup (n + i) n (by omega) (by omega) (by omega) hx
        subst hi0
        have hy : q.getD (n + (0 + 1)) 0 = a.getD (n + 1) 0 := congrArg Prod.snd he
        rw [show n + (0 + 1) = n + 1 from by omega] at hy
        exact hmaxa a ha hmr hy.symm
      · have hy : q.getD (n + (i + 1)) 0 = a.getD n 0 := congrArg Prod.snd he
        rw [han] at hy
        exact nodup_getD_ne q hqnodup (n + (i + 1)) n (by omega) (by omega)
          (by omega) hy
  -- query succeeds and is bounded by the weight of q's suffix
  obtain ⟨sp, wt', hor⟩ := DijkstraFromTo_reach (prev.getD n 0) t _ (q.drop n)
    hsuf_head hsuf_last hsuf_chain hsuf_nodup hsuf_nodes
  have hminsuf : wt' ≤ pathWeight G.w (q.drop n) := by
    have := DijkstraFromTo_min (prev.getD n 0) t _ sp wt' hor (q.drop n)
      hsuf_head hsuf_last hsuf_chain hsuf_nodup hsuf_nodes
    rwa [buildMask_G] at this
  have hsplit : pathWeight G.w q =
      pathWeight G.w (q.take (n + 1)) + pathWeight G.w (q.drop n) :=
    pathWeight_take_drop G.w q n (by omega)
  have htknn : 0 ≤ pathWeight G.w (q.take (n + 1)) :=
    pathWeight_nonneg G hnneg _ (hqchain.take (n + 1))
  have hsufle : pathWeight G.w (q.drop n) ≤ pathWeight G.w q := by
    rw [hsplit]
    linarith
  have hcandw : (yenCand G prev n sp wt').weight ≤ pathWeight G.w q := by
    unfold yenCand
    by_cases h1 : 1 < (prev.take (n + 1)).length
    · rw [if_pos h1]
      dsimp only
      rw [← htqp, hsplit]
      have := hminsuf
      linarith
    · rw [if_neg h1]
      dsimp only
      exact le_trans hminsuf hsufle
  obtain ⟨-, -, hcexact, hctake, -⟩ :=
    yenCand_spec G s t hclosed paths hpvalid prev hprev n hp2 sp wt' hor
  have hctakeq : (yenCand G prev n sp wt').path.take (n + 1) = q.take (n + 1) := by
    rw [hctake, htqp]
  -- run the spur step
  intro pot hpot
  unfold spurStep
  rw [hor]
  dsimp only
  have hskip : ¬ cost < wt' :=
    not_lt.mpr (le_trans hminsuf (le_trans hsufle hqcost))
  rw [if_neg hskip]
  by_cases h2 : pot.any (fun c => isSamePath c.path (yenCand G prev n sp wt').path) = true
  · rw [if_pos h2]
    rw [List.any_eq_true] at h2
    obtain ⟨c, hc, hcs⟩ := h2
    rw [isSamePath_iff] at hcs
    refine ⟨c, hc, ?_, ?_⟩
    · have hcw : c.weight = pathWeight G.w c.path := (hpot.1 c hc).2.2.1
      rw [hcw, hcs, ← hcexact]
      exact hcandw
    · rw [hcs]
      exact hctakeq
  · rw [if_neg h2]
    exact ⟨yenCand G prev n sp wt',
      List.mem_append_right _ (List.mem_singleton.mpr rfl), hcandw, hctakeq⟩

/-! Lemmas about the full spur loop of one round. -/

theorem getLastD_mem : ∀ (l : List (List Int)) (d : List Int), l ≠ [] → l.getLastD d ∈ l := by
  intro l
  induction l with
  | nil => intro d h; exact absurd rfl h
  | cons a l' ih =>
    intro d _
    cases l' with
    | nil => exact List.mem_singleton.mpr rfl
    | cons b l'' =>
      have h1 : (a :: b :: l'').getLastD d = (b :: l'').getLastD a := rfl
      rw [h1]
      exact List.mem_cons_of_mem _ (ih a (by simp))

theorem getLastD_append_singleton (l : List (List Int)) (b d : List Int) :
    (l ++ [b]).getLastD d = b :=
  List.getLastD_concat d b l

theorem tail_append_singleton (l : List (List Int)) (b : List Int) (h : l ≠ []) :
    (l ++ [b]).tail = l.tail ++ [b] := by
  cases l with
  | nil => exact absurd rfl h
  | cons a l' => rfl

theorem sorted_le_last (G : WGraph) :
    ∀ l : List (List Int),
      l.Pairwise (fun p q => pathWeight G.w p ≤ pathWeight G.w q) →
      ∀ p ∈ l, pathWeight G.w p ≤ pathWeight G.w (l.getLastD []) := by
  intro l
  induction l with
  | nil => intro _ p hp; exact absurd hp (List.not_mem_nil p)
  | cons a l' ih =>
    intro hs p hp
    obtain ⟨ha, hl'⟩ := List.pairwise_cons.mp hs
    cases l' with
    | nil =>
      rw [List.mem_singleton.mp hp]
      exact le_refl _
    | cons b l'' =>
      have hlast : ((a :: b :: l'').getLastD []) = (b :: l'').getLastD [] := rfl
      rw [hlast]
      rcases List.mem_cons.mp hp with rfl | hp'
      · exact ha _ (getLastD_mem (b :: l'') [] (by simp))
      · exact ih hl' p hp'

theorem yenRound_eq (G : WGraph) (cost : ℚ) (t : Int) (paths : List (List Int))
    (pot : List yenShortest) :
    yenRound G cost t paths pot =
      (List.range ((paths.getLastD []).length - 1)).foldl
        (spurStep G cost t paths (paths.getLastD [])) pot := rfl

theorem spur_foldl_extends (G : WGraph) (cost : ℚ) (t : Int) (paths : List (List Int))
    (prev : List Int) :
    ∀ (l : List Nat) (pot : List yenShortest),
      ∃ extra, l.foldl (spurStep G cost t paths prev) pot = pot ++ extra := by
  intro l
  induction l with
  | nil => intro pot; exact ⟨[], (List.append_nil pot).symm⟩
  | cons m ms ih =>
    intro pot
    simp only [List.foldl_cons]
    obtain ⟨e1, he1⟩ := spurStep_extends G cost t paths prev pot m
    obtain ⟨e2, he2⟩ := ih (spurStep G cost t paths prev pot m)
    exact ⟨e1 ++ e2, by rw [he2, he1, List.append_assoc]⟩

theorem spur_foldl_potinv (G : WGraph) (cost : ℚ) (s t : Int)
    (hclosed : ∀ u v, v ∈ G.adj u → v ∈ G.nodes)
    (paths : List (List Int)) (hpvalid : ∀ p ∈ paths, ValidPath G s t p)
    (prev : List Int) (hprev : prev ∈ paths) :
    ∀ l : List Nat, (∀ m ∈ l, m + 2 ≤ prev.length) →
      ∀ pot, PotInv G s t paths pot →
        PotInv G s t paths (l.foldl (spurStep G cost t paths prev) pot) := by
  intro l
  induction l with
  | nil => intro _ pot hpot; exact hpot
  | cons m ms ih =>
    intro hb pot hpot
    simp only [List.foldl_cons]
    exact ih (fun x hx => hb x (List.mem_cons_of_mem _ hx)) _
      (spurStep_potinv G cost s t hclosed paths hpvalid prev hprev pot m
        (hb m (List.mem_cons_self _ _)) hpot)

theorem spur_foldl_witness (G : WGraph) (cost : ℚ) (s t : Int)
    (hclosed : ∀ u v, v ∈ G.adj u → v ∈ G.nodes)
    (paths : List (List Int)) (hpvalid : ∀ p ∈ paths, ValidPath G s t p)
    (prev : List Int) (hprev : prev ∈ paths)
    (W : yenShortest → Prop) (n : Nat)
    (Hstep : ∀ pot, PotInv G s t paths pot →
      ∃ c ∈ spurStep G cost t paths prev pot n, W c) :
    ∀ l : List Nat, n ∈ l → (∀ m ∈ l, m + 2 ≤ prev.length) →
      ∀ pot, PotInv G s t paths pot →
        ∃ c ∈ l.foldl (spurStep G cost t paths prev) pot, W c := by
  intro l
  induction l with
  | nil => intro hn; exact absurd hn (List.not_mem_nil n)
  | cons m ms ih =>
    intro hn hb pot hpot
    simp only [List.foldl_cons]
    rcases List.mem_cons.mp hn with rfl | hn'
    · obtain ⟨c, hc, hw⟩ := Hstep pot hpot
      obtain ⟨extra, he⟩ := spur_foldl_extends G cost t paths prev ms
        (spurStep G cost t paths prev pot n)
      exact ⟨c, by rw [he]; exact List.mem_append_left _ hc, hw⟩
    · exact ih hn' (fun x hx => hb x (List.mem_cons_of_mem _ hx)) _
        (spurStep_potinv G cost s t hclosed paths hpvalid prev hprev pot m
          (hb m (List.mem_cons_self _ _)) hpot)

/-- Effect of one full round: the pool invariant is preserved and the
coverage becomes unconditional. -/
theorem yenRound_spec (G : WGraph) (cost : ℚ) (s t : Int)
    (hclosed : ∀ u v, v ∈ G.adj u → v ∈ G.nodes)
    (hnneg : ∀ u v, v ∈ G.adj u → 0 ≤ (G.w u v).1)
    (paths : List (List Int)) (pot : List yenShortest)
    (hinv : LoopInv G cost s t paths pot) :
    PotInv G s t paths (yenRound G cost t paths pot) ∧
      ∀ q, ValidPath G s t q → pathWeight G.w q ≤ cost → q ∉ paths →
        ∃ c ∈ yenRound G cost t paths pot, c.weight ≤ pathWeight G.w q ∧
          c.path.take (maxShared q paths) = q.take (maxShared q paths) := by
  have hprev_mem : paths.getLastD [] ∈ paths := getLastD_mem paths [] hinv.paths_ne
  have hprevv := hinv.paths_valid _ hprev_mem
  have hbound : ∀ m ∈ List.range ((paths.getLastD []).length - 1),
      m + 2 ≤ (paths.getLastD []).length := by
    intro m hm
    rw [List.mem_range] at hm
    have := hinv.paths_long _ hprev_mem
    omega
  rw [yenRound_eq]
  constructor
  · exact spur_foldl_potinv G cost s t hclosed paths hinv.paths_valid _ hprev_mem
      _ hbound pot hinv.pot_inv
  · intro q hq hqc hqf
    have hM1 : 1 ≤ maxShared q paths := by
      have h1 : 1 ≤ sharedLen q (paths.getLastD []) :=
        one_le_sharedLen q _ s hq.2.1 hprevv.2.1
      have h2 := sharedLen_le_maxShared q paths _ hprev_mem
      omega
    rcases hinv.cov q hq hqc hqf with ⟨c, hc, hcw, hct⟩ | hlast
    · obtain ⟨extra, he⟩ := spur_foldl_extends G cost t paths (paths.getLastD [])
        (List.range ((paths.getLastD []).length - 1)) pot
      exact ⟨c, by rw [he]; exact List.mem_append_left _ hc, hcw, hct⟩
    · have hsh : sharedLen q (paths.getLastD []) = (maxShared q paths - 1) + 1 := by
        omega
      have hmax' : ∀ a ∈ paths, sharedLen q a ≤ (maxShared q paths - 1) + 1 := by
        intro a ha
        have := sharedLen_le_maxShared q paths a ha
        omega
      have Hstep := spurStep_witness G cost s t hclosed hnneg paths hinv.paths_valid
        (paths.getLastD []) hprev_mem q hq hqc hqf (maxShared q paths - 1) hsh hmax'
      have htq : q.take ((maxShared q paths - 1) + 1) =
          (paths.getLastD []).take ((maxShared q paths - 1) + 1) := by
        have := take_sharedLen_eq q (paths.getLastD [])
        rwa [hsh] at this
      obtain ⟨-, hp2⟩ := shared_strict q (paths.getLastD []) t (maxShared q paths - 1)
        hq.2.2.2.1 hq.2.2.1 hprevv.2.2.2.1 hprevv.2.2.1
        (fun e => hqf (e ▸ hprev_mem)) htq
        (by have := hsh ▸ sharedLen_le_left q (paths.getLastD []); omega)
        (by have := hsh ▸ sharedLen_le_right q (paths.getLastD []); omega)
      have hnin : (maxShared q paths - 1) ∈
          List.range ((paths.getLastD []).length - 1) := by
        rw [List.mem_range]
        omega
      obtain ⟨c, hc, hcw, hct⟩ := spur_foldl_witness G cost s t hclosed paths
        hinv.paths_valid (paths.getLastD []) hprev_mem _ (maxShared q paths - 1) Hstep
        (List.range ((paths.getLastD []).length - 1)) hnin hbound pot hinv.pot_inv
      refine ⟨c, hc, hcw, ?_⟩
      rwa [show (maxShared q paths - 1) + 1 = maxShared q paths from by omega] at hct

/-- Promotion of the cheapest candidate after a round re-establishes the
loop invariant for the extended accepted list. -/
theorem accept_inv (G : WGraph) (cost : ℚ) (s t : Int)
    (hclosed : ∀ u v, v ∈ G.adj u → v ∈ G.nodes)
    (hnneg : ∀ u v, v ∈ G.adj u → 0 ≤ (G.w u v).1)
    (paths : List (List Int)) (pot : List yenShortest)
    (hinv : LoopInv G cost s t paths pot)
    (best : yenShortest) (rest : List yenShortest)
    (hsort : sortByWeight (yenRound G cost t paths pot) = best :: rest)
    (hok : ¬ (best.path.length ≤ 1 ∨ cost < best.weight)) :
    LoopInv G cost s t (paths ++ [best.path]) rest := by
  obtain ⟨hpotinv, hcov⟩ := yenRound_spec G cost s t hclosed hnneg paths pot hinv
  have hperm : List.Perm (best :: rest) (yenRound G cost t paths pot) := by
    rw [← hsort]
    exact sortByWeight_perm _
  have hpw : (best :: rest).Pairwise (fun a b => a.weight ≤ b.weight) := by
    rw [← hsort]
    exact sortByWeight_pairwise _
  have hbestmem : best ∈ yenRound G cost t paths pot :=
    hperm.subset (List.mem_cons_self _ _)
  have hrest_sub : ∀ c ∈ rest, c ∈ yenRound G cost t paths pot :=
    fun c hc => hperm.subset (List.mem_cons_of_mem _ hc)
  obtain ⟨hbv, hbl, hbe, hbf⟩ := hpotinv.1 best hbestmem
  push_neg at hok
  obtain ⟨hlen1, hcost1⟩ := hok
  have hbcost : pathWeight G.w best.path ≤ cost := by
    rw [← hbe]
    exact hcost1
  have hmapnodup : ((best :: rest).map yenShortest.path).Nodup :=
    (hperm.map yenShortest.path).nodup_iff.mpr hpotinv.2
  have hbest_notin_rest : ∀ c ∈ rest, c.path ≠ best.path := by
    intro c hc he
    have := (List.nodup_cons.mp hmapnodup).1
    exact this (he ▸ List.mem_map_of_mem yenShortest.path hc)
  have hlast_le_best :
      pathWeight G.w (paths.getLastD []) ≤ pathWeight G.w best.path :=
    hinv.min_out best.path hbv hbcost hbf
  have hcross : ∀ p ∈ paths, pathWeight G.w p ≤ pathWeight G.w best.path :=
    fun p hp => le_trans (sorted_le_last G paths hinv.paths_sorted p hp) hlast_le_best
  have hbest_min : ∀ c ∈ yenRound G cost t paths pot, best.weight ≤ c.weight := by
    intro c hc
    rcases List.mem_cons.mp (hperm.mem_iff.mpr hc) with rfl | hc'
    · exact le_refl _
    · exact (List.pairwise_cons.mp hpw).1 c hc'
  have hMle : ∀ q : List Int, paths ≠ [] → maxShared q paths ≤ q.length := by
    intro q hne
    obtain ⟨r, hr, he⟩ := maxShared_realized q paths hne
    rw [he]
    exact sharedLen_le_left q r
  refine ⟨?_, ?_, ?_, ?_, ?_, ?_, ?_, ?_, ?_⟩
  · simp
  · intro p hp
    rcases List.mem_append.mp hp with hp' | hp'
    · exact hinv.paths_valid p hp'
    · rw [List.mem_singleton.mp hp']
      exact hbv
  · intro p hp
    rcases List.mem_append.mp hp with hp' | hp'
    · exact hinv.paths_long p hp'
    · rw [List.mem_singleton.mp hp']
      exact hbl
  · refine List.nodup_append.mpr ⟨hinv.paths_nodup, List.nodup_singleton _, ?_⟩
    intro p hp hp'
    rw [List.mem_singleton.mp hp'] at hp
    exact hbf hp
  · refine List.pairwise_append.mpr ⟨hinv.paths_sorted, List.pairwise_singleton _ _, ?_⟩
    intro p hp b hb
    rw [List.mem_singleton.mp hb]
    exact hcross p hp
  · rw [tail_append_singleton paths best.path hinv.paths_ne]
    intro p hp
    rcases List.mem_append.mp hp with hp' | hp'
    · exact hinv.paths_cost p hp'
    · rw [List.mem_singleton.mp hp']
      exact hbcost
  · constructor
    · intro c hc
      obtain ⟨hcv, hcl, hce, hcf⟩ := hpotinv.1 c (hrest_sub c hc)
      refine ⟨hcv, hcl, hce, ?_⟩
      intro hmem
      rcases List.mem_append.mp hmem with hm' | hm'
      · exact hcf hm'
      · exact hbest_notin_rest c hc (List.mem_singleton.mp hm')
    · exact (List.nodup_cons.mp hmapnodup).2
  · intro q hqv hqc hqf
    have hqf' : q ∉ paths := fun hc => hqf (List.mem_append_left _ hc)
    obtain ⟨c, hc, hcw, -⟩ := hcov q hqv hqc hqf'
    rw [getLastD_append_singleton]
    calc pathWeight G.w best.path = best.weight := hbe.symm
      _ ≤ c.weight := hbest_min c hc
      _ ≤ pathWeight G.w q := hcw
  · intro q hqv hqc hqf
    have hqf' : q ∉ paths := fun hc => hqf (List.mem_append_left _ hc)
    obtain ⟨c, hc, hcw, hct⟩ := hcov q hqv hqc hqf'
    have hMq : maxShared q paths ≤ q.length := hMle q hinv.paths_ne
    have hMnew : maxShared q (paths ++ [best.path]) =
        max (maxShared q paths) (sharedLen q best.path) := maxShared_append q paths best.path
    rcases List.mem_cons.mp (hperm.mem_iff.mpr hc) with rfl | hcrest
    · -- the pooled witness is exactly the promoted candidate
      right
      rw [getLastD_append_singleton]
      have hshared_ge : maxShared q paths ≤ sharedLen q c.path := by
        apply le_sharedLen_of_take_eq q c.path (maxShared q paths) ?_ hct.symm
        have := congrArg List.length hct
        rw [List.length_take, List.length_take] at this
        omega
      rw [hMnew]
      omega
    · by_cases hcase : sharedLen q best.path ≤ maxShared q paths
      · left
        refine ⟨c, hcrest, hcw, ?_⟩
        rw [hMnew, max_eq_left hcase]
        exact hct
      · right
        rw [getLastD_append_singleton, hMnew]
        omega

/-- The outer loop preserves the invariant for any fuel. -/
theorem yenLoop_inv (G : WGraph) (cost : ℚ) (s t : Int)
    (hclosed : ∀ u v, v ∈ G.adj u → v ∈ G.nodes)
    (hnneg : ∀ u v, v ∈ G.adj u → 0 ≤ (G.w u v).1) :
    ∀ (fuel : Nat) (paths : List (List Int)) (pot : List yenShortest),
      LoopInv G cost s t paths pot →
      ∃ pot', LoopInv G cost s t (yenLoop G cost t fuel paths pot) pot' := by
  intro fuel
  induction fuel with
  | zero => intro paths pot h; exact ⟨pot, h⟩
  | succ fuel ih =>
    intro paths pot h
    unfold yenLoop
    cases hs : sortByWeight (yenRound G cost t paths pot) with
    | nil => exact ⟨pot, h⟩
    | cons best rest =>
      dsimp only
      by_cases hb : best.path.length ≤ 1 ∨ cost < best.weight
      · rw [if_pos hb]
        exact ⟨pot, h⟩
      · rw [if_neg hb]
        exact ih _ _ (accept_inv G cost s t hclosed hnneg paths pot h best rest hs hb)

/-- The invariant holds at loop entry with the single oracle path. -/
theorem init_inv (G : WGraph) (cb : ℚ) (s t : Int)
    (hclosed : ∀ u v, v ∈ G.adj u → v ∈ G.nodes)
    (hs : s ∈ G.nodes)
    (p0 : List Int) (w0 : ℚ)
    (h : DijkstraFromTo s t { G := G, visitedNodes := [], visitedEdges := [] } =
      some (p0, w0))
    (hlen : p0.length ≠ 1) :
    LoopInv G (cb + w0) s t [p0] [] := by
  obtain ⟨h1, h2, h3, h4, h5⟩ := DijkstraFromTo_sound s t _ p0 w0 h
  have hne : p0 ≠ [] := by
    intro e
    rw [e] at h1
    exact Option.noConfusion h1
  have hchain : p0.Chain' (fun u v => v ∈ G.adj u) :=
    List.Chain'.imp (fun a b hab => (maskedStep_no_mask G a b).mp hab) h3
  have hnodes : ∀ x ∈ p0, x ∈ G.nodes := by
    apply forall_mem_split p0 s _ h1 hs
    intro x hx
    obtain ⟨u, hu⟩ := chain'_tail_exists _ p0 h3 x hx
    exact hclosed u x ((maskedStep_no_mask G u x).mp hu)
  have hvalid : ValidPath G s t p0 := ⟨hne, h1, h2, h4, hchain, hnodes⟩
  have hmin : ∀ q, ValidPath G s t q → w0 ≤ pathWeight G.w q := by
    intro q hq
    obtain ⟨-, hq1, hq2, hq4, hq5, hq6⟩ := hq
    exact DijkstraFromTo_min s t _ p0 w0 h q hq1 hq2
      (List.Chain'.imp (fun a b hab => (maskedStep_no_mask G a b).mpr hab) hq5) hq4 hq6
  refine ⟨?_, ?_, ?_, ?_, ?_, ?_, ?_, ?_, ?_⟩
  · simp
  · intro p hp
    rw [List.mem_singleton.mp hp]
    exact hvalid
  · intro p hp
    rw [List.mem_singleton.mp hp]
    have : 0 < p0.length := List.length_pos.mpr hne
    omega
  · exact List.nodup_singleton _
  · exact List.pairwise_singleton _ _
  · intro p hp
    simp at hp
  · exact ⟨fun c hc => absurd hc (List.not_mem_nil c), List.nodup_nil⟩
  · intro q hqv _ _
    show pathWeight G.w ([p0].getLastD []) ≤ pathWeight G.w q
    have hgl : ([p0].getLastD []) = p0 := rfl
    rw [hgl, ← h5]
    exact hmin q hqv
  · intro q hqv hqc hqf
    right
    show sharedLen q ([p0].getLastD []) = maxShared q [p0]
    have hgl : ([p0].getLastD []) = p0 := rfl
    rw [hgl]
    unfold maxShared
    simp

/-- Edges of the example graph end inside its node list. -/
theorem exG_closed : ∀ u v, v ∈ exG.adj u → v ∈ exG.nodes := by
  intro u v hv
  show v ∈ exG.nodes
  unfold exG at hv ⊢
  dsimp only at hv ⊢
  split_ifs at hv with h1 h2 h3 h4
  · rcases List.mem_cons.mp hv with rfl | hv'
    · simp
    · simp at hv'
      rw [hv']
      simp
  · rcases List.mem_cons.mp hv with rfl | hv'
    · simp
    · simp at hv'
      rw [hv']
      simp
  · simp at hv
    rw [hv]
    simp
  · simp at hv
    rw [hv]
    simp
  · simp at hv

/-- Master consequence: when the oracle finds a path of two or more
nodes, the full loop invariant holds of the returned list (with the
absolute ceiling cb + w0) and the oracle path heads the list. -/
theorem yen_final_inv (G : WGraph) (k : Int) (cb : ℚ) (s t : Int)
    (hclosed : ∀ u v, v ∈ G.adj u → v ∈ G.nodes)
    (hnneg : ∀ u v, v ∈ G.adj u → 0 ≤ (G.w u v).1)
    (hs : s ∈ G.nodes)
    (p0 : List Int) (w0 : ℚ)
    (h : DijkstraFromTo s t { G := G, visitedNodes := [], visitedEdges := [] } =
      some (p0, w0))
    (hlen : p0.length ≠ 1) :
    ∃ pot', LoopInv G (cb + w0) s t (YenKShortestPaths G k cb s t) pot' ∧
      (YenKShortestPaths G k cb s t).head? = some p0 := by
  have hinit := init_inv G cb s t hclosed hs p0 w0 h hlen
  unfold YenKShortestPaths
  simp only [h]
  rw [if_neg hlen]
  obtain ⟨pot', hfin⟩ := yenLoop_inv G (cb + w0) s t hclosed hnneg
    (if k < 0 then (G.nodes.length + 2).factorial else (k - 1).toNat) [p0] [] hinit
  refine ⟨pot', hfin, ?_⟩
  obtain ⟨suff, hsuff⟩ := yenLoop_extends G (cb + w0) t
    (if k < 0 then (G.nodes.length + 2).factorial else (k - 1).toNat) [p0] []
  rw [hsuff]
  rfl

/-! Claim theorems. -/

/-- C1 counterexample: the graph negG contains a negative-weight edge,
yet YenKShortestPaths does not fail before attempting a search or before
producing a result: it returns the normal nonempty result, because the
source performs no up-front weight validation and the offending edge is
never consumed by any shortest-path query. -/
theorem yen_negative_edge_no_failure :
    (∃ u v, v ∈ negG.adj u ∧ (negG.w u v).1 < 0) ∧
      YenKShortestPaths negG 3 10 0 1 = [[0, 1]] := by
  refine ⟨⟨5, 6, ?_, ?_⟩, ?_⟩
  · show 6 ∈ negG.adj 5
    decide
  · show (negG.w 5 6).1 < 0
    with_unfolding_all decide
  · with_unfolding_all decide

/-- C1 amended: YenKShortestPaths performs no negative-weight validation
of its own; a negative edge that no shortest-path query consumes does not
cause any failure, and the call returns exactly the same results as on
the graph with that weight replaced by a positive one. -/
theorem yen_negative_edge_unconsumed_irrelevant :
    YenKShortestPaths negG 3 10 0 1 = YenKShortestPaths posG 3 10 0 1 := by
  with_unfolding_all decide

/-- C7: an unreachable target (the oracle returns the empty path) yields
the empty result for any k without constituting an error, and when the
oracle's path holds a single node (source equals target) that singleton
path is returned as the sole result. -/
theorem yen_unreachable_and_singleton (G : WGraph) (k : Int) (cost : ℚ) (s t : Int) :
    (DijkstraFromTo s t { G := G, visitedNodes := [], visitedEdges := [] } = none →
        YenKShortestPaths G k cost s t = []) ∧
      (∀ p w,
        DijkstraFromTo s t { G := G, visitedNodes := [], visitedEdges := [] } = some (p, w) →
          p.length = 1 → YenKShortestPaths G k cost s t = [p]) := by
  constructor
  · intro h
    unfold YenKShortestPaths
    simp only [h]
  · intro p w h hlen
    unfold YenKShortestPaths
    simp [h, hlen]

/-- C7 witness: on negG the target 9 is unreachable from 0 and the result
is empty, while querying from 0 to 0 returns the singleton path. -/
theorem yen_unreachable_and_singleton_witness :
    YenKShortestPaths negG 7 10 0 9 = [] ∧ YenKShortestPaths negG 7 10 0 0 = [[0]] :=
  ⟨(yen_unreachable_and_singleton negG 7 10 0 9).1 (by with_unfolding_all decide),
    (yen_unreachable_and_singleton negG 7 10 0 0).2 [0] 0 (by with_unfolding_all decide)
      (by decide)⟩

/-- C8: no operation of the masking view mutates the wrapped graph (each
state-changing operation preserves the wrapped WGraph unchanged), and
Weight delegates to the underlying weight function whatever the current
suppression state is. -/
theorem adjuster_never_mutates_graph :
    (∀ a : yenKSPAdjuster, a.reset.G = a.G) ∧
      (∀ (a : yenKSPAdjuster) (u : Int), (a.removeNode u).G = a.G) ∧
      (∀ (a : yenKSPAdjuster) (u v : Int), (a.removeEdge u v).G = a.G) ∧
      (∀ (a : yenKSPAdjuster) (u v : Int), a.Weight u v = a.G.w u v) := by
  refine ⟨fun a => rfl, fun a u => rfl, fun a u v => ?_, fun a u v => rfl⟩
  unfold yenKSPAdjuster.removeEdge
  split <;> rfl

/-- C9: with k = 0 the outer loop condition (i starting at 1) is already
false, but the first path has been computed and accepted before any count
check, so the call returns exactly what k = 1 returns; in particular a
reachable target yields the shortest path, not an empty sequence. -/
theorem yen_k_zero_computes_first_path (G : WGraph) (cost : ℚ) (s t : Int) :
    YenKShortestPaths G 0 cost s t = YenKShortestPaths G 1 cost s t ∧
      (∀ p w,
        DijkstraFromTo s t { G := G, visitedNodes := [], visitedEdges := [] } = some (p, w) →
          YenKShortestPaths G 0 cost s t = [p]) := by
  constructor
  · unfold YenKShortestPaths
    cases hd : DijkstraFromTo s t { G := G, visitedNodes := [], visitedEdges := [] } with
    | none => simp only [hd]
    | some pw =>
      simp only [hd]
      norm_num [show ((-1 : Int)).toNat = 0 from rfl]
  · intro p w h
    unfold YenKShortestPaths
    simp only [h]
    split
    · rfl
    · norm_num [yenLoop]

/-- C9 witness: on negG with source 0 and target 1 the oracle returns the
two-node shortest path and k = 0 still returns it. -/
theorem yen_k_zero_computes_first_path_witness :
    YenKShortestPaths negG 0 10 0 1 = [[0, 1]] :=
  (yen_k_zero_computes_first_path negG 10 0 1).2 [0, 1] 1 (by with_unfolding_all decide)

/-- C10: the deviation-edge access at position n + 1 performed by the
masking loop is in bounds: an accepted path that is loopless, ends at the
target, and matches the root (whose last node, the spur, differs from the
target) has length at least n + 2. -/
theorem yen_deviation_access_in_bounds (path root : List Int) (n : Nat) (t spur : Int)
    (hm : matchesRoot path root n) (hnd : path.Nodup)
    (hlast : path.getLast? = some t)
    (hspur : root.getLast? = some spur) (hne : spur ≠ t) :
    n + 2 ≤ path.length := by
  obtain ⟨hlen, htake⟩ := hm
  by_contra hcon
  push_neg at hcon
  have htk : path.take (n + 1) = path := List.take_of_length_le (by omega)
  have hroot : root = path := by rw [← htake, htk]
  rw [hroot, hlast] at hspur
  exact hne (Option.some.inj hspur).symm

/-- C10 witness: concrete instance of the bound. -/
theorem yen_deviation_access_in_bounds_witness :
    matchesRoot [10, 11, 12] [10, 11] 1 ∧ 1 + 2 ≤ ([10, 11, 12] : List Int).length :=
  ⟨by decide,
    yen_deviation_access_in_bounds [10, 11, 12] [10, 11] 1 12 11 (by decide) (by decide)
      (by decide) (by decide) (by decide)⟩

/-- Edge weights of the example graph are nonnegative. -/
theorem exG_nonneg : ∀ u v, v ∈ exG.adj u → 0 ≤ (exG.w u v).1 := by
  intro u v _
  show 0 ≤ (exG.w u v).1
  unfold exG
  dsimp only
  split_ifs <;> norm_num

/-- C2: on a nonnegative-weight graph with the target reachable, the
first path of the returned sequence is the oracle's path, whose reported
weight is its exact path weight and is minimal among all loopless
source-to-target paths of the graph. -/
theorem yen_first_path_is_shortest (G : WGraph) (k : Int) (cb : ℚ) (s t : Int)
    (hnneg : ∀ u v, v ∈ G.adj u → 0 ≤ (G.w u v).1)
    (p0 : List Int) (w0 : ℚ)
    (h : DijkstraFromTo s t { G := G, visitedNodes := [], visitedEdges := [] } =
      some (p0, w0)) :
    (YenKShortestPaths G k cb s t).head? = some p0 ∧ w0 = pathWeight G.w p0 ∧
      ∀ q, ValidPath G s t q → w0 ≤ pathWeight G.w q := by
  refine ⟨?_, ?_, ?_⟩
  · unfold YenKShortestPaths
    simp only [h]
    split
    · rfl
    · obtain ⟨suff, hs⟩ := yenLoop_extends G (cb + w0) t
        (if k < 0 then (G.nodes.length + 2).factorial else (k - 1).toNat) [p0] []
      rw [hs]
      rfl
  · exact (DijkstraFromTo_sound s t _ p0 w0 h).2.2.2.2
  · intro q hq
    obtain ⟨-, h1, h2, h4, h5, h6⟩ := hq
    exact DijkstraFromTo_min s t _ p0 w0 h q h1 h2
      (List.Chain'.imp (fun a b hab => (maskedStep_no_mask G a b).mpr hab) h5) h4 h6

/-- C2 witness: on the spec's example graph the oracle finds the path
A B D E of weight 3 and the returned sequence starts with it. -/
theorem yen_first_path_is_shortest_witness :
    (YenKShortestPaths exG 3 100 1 5).head? = some [1, 2, 4, 5] :=
  (yen_first_path_is_shortest exG 3 100 1 5 exG_nonneg [1, 2, 4, 5] 3
      (by with_unfolding_all decide)).1

/-- C3: on a valid input (nonnegative edge weights, adjacency inside the
node set) the weights of the returned paths are nondecreasing along the
sequence, for every k and cost budget. -/
theorem yen_weights_nondecreasing (G : WGraph) (k : Int) (cb : ℚ) (s t : Int)
    (hclosed : ∀ u v, v ∈ G.adj u → v ∈ G.nodes)
    (hnneg : ∀ u v, v ∈ G.adj u → 0 ≤ (G.w u v).1)
    (hs : s ∈ G.nodes) :
    (YenKShortestPaths G k cb s t).Pairwise
      (fun p q => pathWeight G.w p ≤ pathWeight G.w q) := by
  cases hd : DijkstraFromTo s t { G := G, visitedNodes := [], visitedEdges := [] } with
  | none =>
    unfold YenKShortestPaths
    simp only [hd]
    exact List.Pairwise.nil
  | some pw =>
    obtain ⟨p0, w0⟩ := pw
    by_cases hl : p0.length = 1
    · unfold YenKShortestPaths
      simp only [hd]
      rw [if_pos hl]
      exact List.pairwise_singleton _ _
    · obtain ⟨pot', hfin, -⟩ := yen_final_inv G k cb s t hclosed hnneg hs p0 w0 hd hl
      exact hfin.paths_sorted

/-- C3 witness: the spec's example run is weight-sorted. -/
theorem yen_weights_nondecreasing_witness :
    (YenKShortestPaths exG 3 100 1 5).Pairwise
      (fun p q => pathWeight exG.w p ≤ pathWeight exG.w q) :=
  yen_weights_nondecreasing exG 3 100 1 5 exG_closed exG_nonneg (by decide)

/-- C4: with a nonnegative cost budget every returned path weighs at most
the first returned path's weight plus the budget. -/
theorem yen_within_cost_budget (G : WGraph) (k : Int) (cb : ℚ) (s t : Int)
    (hclosed : ∀ u v, v ∈ G.adj u → v ∈ G.nodes)
    (hnneg : ∀ u v, v ∈ G.adj u → 0 ≤ (G.w u v).1)
    (hs : s ∈ G.nodes) (hcb : 0 ≤ cb) :
    ∀ p ∈ YenKShortestPaths G k cb s t,
      pathWeight G.w p ≤
        pathWeight G.w ((YenKShortestPaths G k cb s t).headD []) + cb := by
  cases hd : DijkstraFromTo s t { G := G, visitedNodes := [], visitedEdges := [] } with
  | none =>
    unfold YenKShortestPaths
    simp only [hd]
    intro p hp
    simp at hp
  | some pw =>
    obtain ⟨p0, w0⟩ := pw
    by_cases hl : p0.length = 1
    · unfold YenKShortestPaths
      simp only [hd]
      rw [if_pos hl]
      intro p hp
      rw [List.mem_singleton.mp hp]
      show pathWeight G.w p0 ≤ pathWeight G.w p0 + cb
      linarith
    · obtain ⟨pot', hfin, hhead⟩ := yen_final_inv G k cb s t hclosed hnneg hs p0 w0 hd hl
      have hw0 : w0 = pathWeight G.w p0 := (DijkstraFromTo_sound s t _ p0 w0 hd).2.2.2.2
      intro p hp
      cases hres : YenKShortestPaths G k cb s t with
      | nil =>
        rw [hres] at hp
        simp at hp
      | cons a l =>
        rw [hres] at hp hhead hfin
        simp only [List.head?_cons, Option.some.injEq] at hhead
        show pathWeight G.w p ≤ pathWeight G.w a + cb
        have hwa : pathWeight G.w a = w0 := by rw [hhead, ← hw0]
        rcases List.mem_cons.mp hp with rfl | hp'
        · linarith
        · have hc := hfin.paths_cost p hp'
          linarith

/-- C4 witness: a concrete returned path of the example run respects the
cost ceiling. -/
theorem yen_within_cost_budget_witness :
    [1, 2, 3, 4, 5] ∈ YenKShortestPaths exG 3 100 1 5 ∧
      pathWeight exG.w [1, 2, 3, 4, 5] ≤
        pathWeight exG.w ((YenKShortestPaths exG 3 100 1 5).headD []) + 100 :=
  ⟨by with_unfolding_all decide,
    yen_within_cost_budget exG 3 100 1 5 exG_closed exG_nonneg (by decide) (by norm_num)
      [1, 2, 3, 4, 5] (by with_unfolding_all decide)⟩

/-- C5: the returned sequence holds no two identical node sequences, and
at every invariant-reachable state, after a full spur round the candidate
pool holds no two identical node sequences either. -/
theorem yen_duplicate_free (G : WGraph) (k : Int) (cb : ℚ) (s t : Int)
    (hclosed : ∀ u v, v ∈ G.adj u → v ∈ G.nodes)
    (hnneg : ∀ u v, v ∈ G.adj u → 0 ≤ (G.w u v).1)
    (hs : s ∈ G.nodes) :
    (YenKShortestPaths G k cb s t).Nodup ∧
      ∀ (cost : ℚ) (paths : List (List Int)) (pot : List yenShortest),
        LoopInv G cost s t paths pot →
        ((yenRound G cost t paths pot).map yenShortest.path).Nodup := by
  constructor
  · cases hd : DijkstraFromTo s t { G := G, visitedNodes := [], visitedEdges := [] } with
    | none =>
      unfold YenKShortestPaths
      simp only [hd]
      exact List.nodup_nil
    | some pw =>
      obtain ⟨p0, w0⟩ := pw
      by_cases hl : p0.length = 1
      · unfold YenKShortestPaths
        simp only [hd]
        rw [if_pos hl]
        exact List.nodup_singleton _
      · obtain ⟨pot', hfin, -⟩ := yen_final_inv G k cb s t hclosed hnneg hs p0 w0 hd hl
        exact hfin.paths_nodup
  · intro cost paths pot hinv
    exact (yenRound_spec G cost s t hclosed hnneg paths pot hinv).1.2

/-- C5 witness: duplicate freedom on the example run. -/
theorem yen_duplicate_free_witness :
    (YenKShortestPaths exG 3 100 1 5).Nodup :=
  (yen_duplicate_free exG 3 100 1 5 exG_closed exG_nonneg (by decide)).1

/-- C6: every returned path is loopless, visiting no node ID twice. -/
theorem yen_paths_loopless (G : WGraph) (k : Int) (cb : ℚ) (s t : Int)
    (hclosed : ∀ u v, v ∈ G.adj u → v ∈ G.nodes)
    (hnneg : ∀ u v, v ∈ G.adj u → 0 ≤ (G.w u v).1)
    (hs : s ∈ G.nodes) :
    ∀ p ∈ YenKShortestPaths G k cb s t, p.Nodup := by
  cases hd : DijkstraFromTo s t { G := G, visitedNodes := [], visitedEdges := [] } with
  | none =>
    unfold YenKShortestPaths
    simp only [hd]
    intro p hp
    simp at hp
  | some pw =>
    obtain ⟨p0, w0⟩ := pw
    by_cases hl : p0.length = 1
    · unfold YenKShortestPaths
      simp only [hd]
      rw [if_pos hl]
      intro p hp
      rw [List.mem_singleton.mp hp]
      exact (DijkstraFromTo_sound s t _ p0 w0 hd).2.2.2.1
    · obtain ⟨pot', hfin, -⟩ := yen_final_inv G k cb s t hclosed hnneg hs p0 w0 hd hl
      intro p hp
      exact (hfin.paths_valid p hp).2.2.2.1

/-- C6 witness: a concrete returned path of the example run is loopless. -/
theorem yen_paths_loopless_witness :
    [1, 2, 3, 4, 5] ∈ YenKShortestPaths exG 3 100 1 5 ∧
      ([1, 2, 3, 4, 5] : List Int).Nodup :=
  ⟨by with_unfolding_all decide,
    yen_paths_loopless exG 3 100 1 5 exG_closed exG_nonneg (by decide)
      [1, 2, 3, 4, 5] (by with_unfolding_all decide)⟩

end YenKSP
